import Mathlib

/-!
# Verification of the powmem ASL codec (`src/index.js`)

Shallow embedding of the bit shift-register primitives, the geohash
codec (`packGeo` / `unpackGeo`), the prefix builder and grinder
(`roll`), the ASL decoder (`decodeASL`), and the geohash-to-flag
heuristic (`xorDistance` / `flagOf`) of the powmem repository.

Byte buffers are `List Nat`.  A JS `Uint8Array` truncates each stored
byte modulo 256, while a plain JS array does not; the two behaviours are
embedded separately (`shiftU8` vs `shiftArr`).  Machine arithmetic is
`Nat` with explicit `% 256` / `% 2 ^ w` where the source truncates.
-/

namespace Powmem

/-- Little-endian value of a byte list: `leVal [b0, b1, ...] = b0 + 256*b1 + ...`. -/
def leVal : List Nat → Nat
  | [] => 0
  | b :: t => b + 256 * leVal t

/-- All entries are bytes (`< 256`); the `Uint8Array` representation invariant. -/
def Bytes (l : List Nat) : Prop := ∀ b ∈ l, b < 256

instance : DecidablePred Bytes := fun l => by unfold Bytes; infer_instance

/-- JS truthiness coercion `inp ? 1 : 0` used by `shift`/`unshift`. -/
def bit01 (inp : Nat) : Nat := if inp = 0 then 0 else 1

/-- Carry-propagating core of `shift` on a `Uint8Array`: each byte becomes
`(x[i] << 1) | c` truncated to 8 bits, the carry into the next byte being the
old bit 7.  Returns the updated buffer and the bit that fell off the front. -/
def shiftU8Go : List Nat → Nat → List Nat × Nat
  | [], c => ([], c)
  | b :: t, c =>
    match shiftU8Go t (b / 128 % 2) with
    | (t', cout) => ((2 * b + c) % 256 :: t', cout)

/-- `shift(x, inp)` from `src/index.js` (lines 150-158) on a `Uint8Array`. -/
def shiftU8 (x : List Nat) (inp : Nat) : List Nat × Nat := shiftU8Go x (bit01 inp)

/-- Carry-propagating core of `shift` on a plain JS array: identical to
`shiftU8Go` except that the stored value `(x[i] << 1) | c` is not truncated. -/
def shiftArrGo : List Nat → Nat → List Nat × Nat
  | [], c => ([], c)
  | b :: t, c =>
    match shiftArrGo t (b / 128 % 2) with
    | (t', cout) => ((2 * b + c) :: t', cout)

/-- `shift(x, inp)` from `src/index.js` on a plain JS array (the scratch
quintet register of `packGeo`). -/
def shiftArr (x : List Nat) (inp : Nat) : List Nat × Nat := shiftArrGo x (bit01 inp)

/-- `unshift(x, inp)` from `src/index.js` (lines 166-175): iterates from the
last byte down, each byte becoming `c | x[i] >> 1` where `c` is the incoming
carry (bit 0 of the following byte, shifted to bit 7; `inp`'s bit for the last
byte); returns the old bit 0 of the first byte.  The JS `|` is `Nat.lor`. -/
def unshiftA : List Nat → Nat → List Nat × Nat
  | [], inp => ([], bit01 inp)
  | b :: t, inp =>
    match unshiftA t inp with
    | (t', cin) => (Nat.lor (cin * 128) (b / 2) :: t', b % 2)

/-- `roundByte(b) = (b >> 3) + (b % 8 ? 1 : 0)` (`src/index.js` line 141). -/
def roundByte (b : Nat) : Nat := b / 8 + (if b % 8 = 0 then 0 else 1)

/-- The geohash base-32 alphabet `GHM` (line 10). -/
def GHM : List Char := "0123456789bcdefghjkmnpqrstuvwxyz".toList

/-- The reverse lookup `GHU` (line 11): index of a character in `GHM`. -/
def GHU (c : Char) : Option Nat := if c ∈ GHM then some (GHM.indexOf c) else none

/-- `GHU[hash[i]] << 3` evaluates to `0` in JS when the character is outside
the alphabet (`undefined << 3 === 0`); `charVal` reflects that coercion. -/
def charVal (c : Char) : Nat := (GHU c).getD 0

/-- A geohash whose characters all belong to the alphabet. -/
def ValidGeo (g : List Char) : Prop := ∀ c ∈ g, c ∈ GHM

instance : DecidablePred ValidGeo := fun g => by unfold ValidGeo; infer_instance

/-- The value a geohash denotes, least-significant character first:
`geoVal [c0, c1, ...] = charVal c0 + 32 * charVal c1 + ...`. -/
def geoVal : List Char → Nat
  | [] => 0
  | c :: t => charVal c + 32 * geoVal t

/-- Inner loop of `packGeo` (lines 127-130): feed `x` bits from the scratch
register `bits` into `buf` via `shift(buf, shift(bits))`, stopping once the
total number of written bits `w` reaches `nBits`. -/
def packPush (buf bits : List Nat) (x w nBits : Nat) : List Nat × Nat :=
  match x with
  | 0 => (buf, w)
  | x' + 1 =>
    match shiftArr bits 0 with
    | (bits', b) =>
      match shiftU8 buf b with
      | (buf', _) =>
        if w + 1 ≥ nBits then (buf', w + 1)
        else packPush buf' bits' x' (w + 1) nBits

/-- Pre-padding of the scratch register (line 124): `5 - x` blind `shift`s. -/
def padBits (bits : List Nat) : Nat → List Nat
  | 0 => bits
  | n + 1 => padBits (shiftArr bits 0).1 n

/-- Outer loop of `packGeo` (lines 118-131), iterating `i` from `tail` down to
`0`; the first argument is the number of remaining iterations (`i + 1`). -/
def packGeoLoop (hash : List Char) (nBits tl : Nat) : Nat → Nat → List Nat → List Nat × Nat
  | 0, w, buf => (buf, w)
  | k + 1, w, buf =>
    let v := charVal (hash.getD k ' ')
    let bits0 := [v * 8]
    match
      (if k = tl ∧ nBits % 5 ≠ 0 then (nBits % 5, padBits bits0 (5 - nBits % 5))
       else (5, bits0) : Nat × List Nat) with
    | (x, bits1) =>
      match packPush buf bits1 x w nBits with
      | (buf', w') => packGeoLoop hash nBits tl k w' buf'

/-- `packGeo(hash, nBits, buf)` (lines 111-134).  `none` models the
`'precision has to be at least 5'` exception; `bufOpt` the optional
destination buffer. -/
def packGeo (hash : List Char) (nBits0 : Nat) (bufOpt : Option (List Nat)) :
    Option (List Nat) :=
  let nBits := min (hash.length * 5) nBits0
  if nBits < 5 then none
  else
    let nBytes := roundByte nBits
    let buf := bufOpt.getD (List.replicate nBytes 0)
    let tl := (nBits + 4) / 5 - 1
    some (packGeoLoop hash nBits tl (tl + 1) 0 buf).1

/-- Strip trailing `'0'` characters: `str.replace(/0+$/, '')` (line 92). -/
def stripZeros (l : List Char) : List Char :=
  ((l.reverse).dropWhile (fun c => c = '0')).reverse

/-- Main loop of `unpackGeo` (lines 80-88) with the remaining iteration count
first; state is `(n, tmp, cpy, str)`.  Returns the final string and scratch. -/
def unpackLoop : Nat → Nat → List Nat → List Nat → List Char → List Char × List Nat
  | 0, _, tmp, _, str => (str, tmp)
  | r + 1, n, tmp, cpy, str =>
    match
      (if n ≠ 0 ∧ n % 5 = 0 then (str ++ [GHM.getD (tmp.headD 0 / 8) '0'], [0])
       else (str, tmp) : List Char × List Nat) with
    | (str', tmp0) =>
      match unshiftA cpy 0 with
      | (cpy', b) =>
        match unshiftA tmp0 b with
        | (tmp', _) => unpackLoop r (n + 1) tmp' cpy' str'

/-- `unpackGeo(buf, nBits)` (lines 73-93).  `none` models the
`BufferUnderflow` exception. -/
def unpackGeo (buf : List Nat) (nBits : Nat) : Option (List Char) :=
  let nBytes := roundByte nBits
  if buf.length < nBytes then none
  else
    let cpy := buf.take nBytes
    match unpackLoop nBits 0 [0] cpy [] with
    | (str, tmp) => some (stripZeros (str ++ [GHM.getD (tmp.headD 0 / 8) '0']))

/-- The defensive copy of `decodeASL` (lines 59-60): a fresh buffer of
`roundByte(4 + geobits)` bytes, missing indices reading as `0`. -/
def defensiveCopy (publicKey : List Nat) (geobits : Nat) : List Nat :=
  (List.range (roundByte (4 + geobits))).map (fun i => publicKey.getD i 0)

/-- `decodeASL(publicKey, geobits)` (lines 57-65) on byte input, returning
`(age, sex, location)`. -/
def decodeASL (publicKey : List Nat) (geobits : Nat) :
    Option (Nat × Nat × List Char) :=
  match unshiftA (defensiveCopy publicKey geobits) 0 with
  | (c1, a0) =>
    match unshiftA c1 0 with
    | (c2, a1) =>
      match unshiftA c2 0 with
      | (c3, s0) =>
        match unshiftA c3 0 with
        | (c4, s1) =>
          (unpackGeo c4 geobits).map
            (fun loc => (Nat.lor a0 (a1 * 2), Nat.lor s0 (s1 * 2), loc))

/-- Prefix construction of `roll` (lines 25-31): pack the location into a
`roundByte(geobits + 4)`-byte buffer, then shift in `sex & 2`, `sex & 1`,
`age & 2`, `age & 1`. -/
def buildPfx (age sex : Nat) (location : List Char) (geobits : Nat) :
    Option (List Nat) :=
  let nbits := geobits + 4
  let buf := List.replicate (roundByte nbits) 0
  (packGeo location geobits (some buf)).map (fun p0 =>
    (shiftU8 (shiftU8 (shiftU8 (shiftU8 p0
      (Nat.land sex 2)).1 (Nat.land sex 1)).1 (Nat.land age 2)).1
      (Nat.land age 1)).1)

/-- `mask = (nbits % 8) ? (1 << (nbits % 8)) - 1 : 0xff` (lines 32-34). -/
def rollMask (nbits : Nat) : Nat :=
  if nbits % 8 ≠ 0 then 2 ^ (nbits % 8) - 1 else 255

/-- Candidate comparison loop of `roll` (lines 41-46):
`v = (n+1 === nBytes) ? (pk[n] & mask) === (prefix[n] & mask) : pk[n] === prefix[n]`,
short-circuiting on `v`.  First argument is the remaining iteration count. -/
def matchLoop (pk pfx : List Nat) (mask nBytes : Nat) : Nat → Nat → Bool → Bool
  | 0, _, v => v
  | r + 1, n, v =>
    if v then
      matchLoop pk pfx mask nBytes r (n + 1)
        (if n + 1 = nBytes then
          Nat.land (pk.getD n 0) mask = Nat.land (pfx.getD n 0) mask
        else pk.getD n 0 = pfx.getD n 0)
    else v

/-- `bytesToHex` of the vendored noble library: two lowercase hex digits per
byte, high nibble first. -/
def bytesToHex (l : List Nat) : List Char :=
  l.flatMap (fun b =>
    ["0123456789abcdef".toList.getD (b / 16 % 16) '0',
     "0123456789abcdef".toList.getD (b % 16) '0'])

/-- Search loop of `roll` (lines 38-48) over an external stream of
`(privateKey, publicKey)` trials; `none` models falling off the loop. -/
def rollLoop (pfx : List Nat) (mask nBytes : Nat)
    (trials : Nat → List Nat × List Nat) : Nat → Nat → Option (List Char)
  | 0, _ => none
  | r + 1, i =>
    if matchLoop (trials i).2 pfx mask nBytes nBytes 0 true then
      some (bytesToHex (trials i).1)
    else rollLoop pfx mask nBytes trials r (i + 1)

/-- `roll(age, sex, location, geobits, maxTries)` (lines 24-49), parameterised
by the external key-generation collaborator `trials` (spec §6).  The outer
`Option` models the `packGeo` exception propagating; the inner `Option` the
found / not-found result. -/
def roll (age sex : Nat) (location : List Char) (geobits maxTries : Nat)
    (trials : Nat → List Nat × List Nat) : Option (Option (List Char)) :=
  let nbits := geobits + 4
  (buildPfx age sex location geobits).map (fun pfx =>
    rollLoop pfx (rollMask nbits) pfx.length trials maxTries 0)

/-- `decodeASL` of the bundled shipped variant
(`src/docs/demo.build.js` lines 5972-5979): identical to `decodeASL` except
that the four `unshift`s run directly on the caller's `publicKey` array with
no defensive copy.  Returns the result together with the caller's array as it
is left after the call. -/
def decodeASLBundled (publicKey : List Nat) (geobits : Nat) :
    Option (Nat × Nat × List Char) × List Nat :=
  match unshiftA publicKey 0 with
  | (c1, a0) =>
    match unshiftA c1 0 with
    | (c2, a1) =>
      match unshiftA c2 0 with
      | (c3, s0) =>
        match unshiftA c3 0 with
        | (c4, s1) =>
          ((unpackGeo c4 geobits).map
            (fun loc => (Nat.lor a0 (a1 * 2), Nat.lor s0 (s1 * 2), loc)), c4)

/-- One step count of `xorDistance`'s XOR loop (line 203). -/
def xorLoop : Nat → List Nat → List Nat → List Nat → List Nat
  | 0, out, _, _ => out
  | r + 1, out, ac, bc =>
    match unshiftA ac 0 with
    | (ac', xa) =>
      match unshiftA bc 0 with
      | (bc', xb) => xorLoop r (shiftU8 out (Nat.xor xa xb)).1 ac' bc' 

/-- Zero-extension `a[i] || 0` to 4 bytes (lines 201-202). -/
def first4 (a : List Nat) : List Nat := (List.range 4).map (fun i => a.getD i 0)

/-- `xorDistance(a, b)` (lines 197-206): XOR the two zero-extended 4-byte
inputs bit by bit via `unshift`/`shift` into a 4-byte output buffer, read
back as a little-endian `uint32`. -/
def xorDistance (a b : List Nat) : Nat :=
  leVal (xorLoop 32 [0, 0, 0, 0] (first4 a) (first4 b))

/-- Bit-reversed XOR of the low `r` bits of two values: the number the XOR
loop accumulates, since each `shift` pushes the popped (least-significant)
bits in at the top of the running result. -/
def revXor : Nat → Nat → Nat → Nat
  | 0, _, _ => 0
  | r + 1, a, b => Nat.xor (a % 2) (b % 2) * 2 ^ r + revXor r (a / 2) (b / 2)

/-- Accumulator loop of `splitOnChar` (tail-recursive so that the large
`POI` table evaluates with bounded stack). -/
def splitGo (sep : Char) : List Char → List Char → List (List Char) → List (List Char)
  | [], cur, acc => (cur.reverse :: acc).reverse
  | c :: t, cur, acc =>
    if c = sep then splitGo sep t [] (cur.reverse :: acc)
    else splitGo sep t (c :: cur) acc

/-- JS `String.prototype.split` on a single-character separator. -/
def splitOnChar (sep : Char) (l : List Char) : List (List Char) :=
  splitGo sep l [] []

/-- The literal `flag:geohash` table (line 235). -/
def POI : String :=
  "🇦🇨:7wtfc36k7311|🇦🇩:sp91fdh1hs8k|🇦🇪:thnm324z28tz|🇦🇫:tw01hf2vt6g3|🇦🇬:deh11cc4re8k|🇦🇮:de5psufyen52|🇦🇱:srq64gwp77nk|🇦🇲:tp05by7g6jeg|🇦🇴:kqh8q8x7s13g|🇦🇶:d00000000000|🇦🇷:69y7pkxff4gc|🇦🇸:2jrnbd192kuc|🇦🇹:u2edk85115y4|🇦🇺:qgx0hnujcy27|🇦🇼:d6nppz6ssqnn|🇦🇽:u6wnm5nj5j7x|🇦🇿:tp5myu215xkz|🇧🇦:sru9f69s8vh7|🇧🇧:ddmej1cunchp|🇧🇩:wh0r3qs35cw7|🇧🇪:u151710b3yyw|🇧🇫:efnvs7yvk06x|🇧🇬:sx8dfsy|🇧🇭:theuq9k98ch6|🇧🇮:kxmkbcfq2bsf|🇧🇯:s19suwqm6119|🇧🇱:ddgr4pyhjupw|🇧🇲:dt9zy3rns6qt|🇧🇳:w8c9f9whj1jw|🇧🇴:6mpe3fmn9q87|🇧🇶:d6pmqkkjbffu|🇧🇷:6vjyjr7428nh|🇧🇸:dk2yqv3er7zb|🇧🇹:tuzkt0b9cdxk|🇧🇻:u4f7hb8nybjt|🇧🇼:ks18cxnzpcgt|🇧🇾:u9e9e98dm27k|🇧🇿:d50cgcqdqv95|🇨🇦:f244mkwzrmk9|🇨🇨:mjz6zc867uv2|🇨🇩:krr3p0u5nqqd|🇨🇫:s3jjwed8kn27|🇨🇬:krgq8nmru1sx|🇨🇭:u0m636zpbcpc|🇨🇮:eck4cu8exjy7|🇨🇰:2hppntbx22nn|🇨🇱:66jc8m77rmc3|🇨🇲:s28jvsx84r5q|🇨🇳:wx4g0bm6c408|🇨🇴:d2g6f3qmdzxh|🇨🇵:dezuwjygz2zm|🇨🇷:d1u0qxq7q7gp|🇨🇺:dhj7mxwqrp7d|🇨🇻:e6xjyz50ncp1|🇨🇼:d6nvnp7j03z7|🇨🇽:6w5u8fhdbscd|🇨🇾:swpzbdwfj5s1|🇨🇿:u2fkbecqcjgb|🇩🇪:u33dc0cppjs7|🇩🇯:sfng60dq5n6m|🇩🇰:u3butzxby979|🇩🇲:ddsreqpn63sh|🇩🇴:d7q686tr7797|🇩🇿:snd3hfudmhfh|🇪🇨:6r8jw6tkrxxd|🇪🇪:ud3t76cn2etg|🇪🇬:stq4yv3jkd44|🇪🇭:sf9yqg763t70|🇪🇷:sfew7gr6kj38|🇪🇸:ezjmgtwuzjwe|🇪🇹:sces1by96pw3|🇪🇺:u0wucrykkwgr|🇫🇮:ue423bvq08ck|🇫🇯:ruye5zqgznzm|🇫🇰:2hvbc3rtt2sk|🇫🇲:x3741zg9rbhv|🇫🇴:gg504enyx2uk|🇫🇷:u09tvw0f64r7|🇬🇦:s20k84m9yss1|🇬🇧:gcpvj0eh6eq9|🇬🇩:ddhkgmxpdrk1|🇬🇪:szrv76120d38|🇬🇫:dbdnrh4uxhh7|🇬🇬:gby0veyw3xz3|🇬🇭:ebzzgu07bt6h|🇬🇮:eykjw5jxkj6t|🇬🇱:gh9xytb6zygr|🇬🇲:edmh7x782f45|🇬🇳:ecc0e6e1kf4y|🇬🇵:dffhx0fyrpu2|🇬🇶:s0r33ssbe7mj|🇬🇷:swbb5ftzdvd2|🇬🇸:5nmf2e2sx54h|🇬🇹:9fz9u3qcs3eu|🇬🇺:x4quqz7w9z0j|🇬🇼:edj5nsccx11m|🇬🇾:d8y5ehb3fu4p|🇭🇰:wecpkthh2pd1|🇭🇲:rs390dkzeh03|🇭🇳:d4dwmwbsd4fq|🇭🇷:u24b9fhq99m7|🇭🇹:d7kecvwe3010|🇭🇺:u2mw1q8xkf61|🇮🇨:ethbvwk4db3x|🇮🇩:qqguwvtzpgcc|🇮🇪:gc7x9813h7tc|🇮🇱:sv9h9r1zf8mg|🇮🇲:gcsu892hjtff|🇮🇳:ttng692md2nf|🇮🇴:2m2qv1952vkh|🇮🇶:svzt98f7j53u|🇮🇷:tjy0mxq6jndq|🇮🇸:ge83tf0mkzed|🇮🇹:sr2yjyx33xus|🇯🇪:gbwrzx0n9j5e|🇯🇲:d71rh2cb4dng|🇯🇴:sv9tcfy9kwbu|🇯🇵:xn774c06kt10|🇰🇪:kzf0tuuburne|🇰🇬:txm4mm5102uu|🇰🇭:w64xmps09230|🇰🇮:80pxx3cvfz81|🇰🇲:mjcu3wjp1gd1|🇰🇳:de56em6bskhd|🇰🇵:wz4tmxdhbwmu|🇰🇷:wydveqv08x1t|🇰🇼:tj1yb2p1n0uj|🇰🇾:de7vbgu|🇰🇿:v2x94vsq7npx|🇱🇦:w78buqdzq685|🇱🇧:sy188541ujmp|🇱🇨:ddkxhkh|🇱🇮:u0qu36q1bgwt|🇱🇰:tc3ky120pk5q|🇱🇷:ec1k96jwksxn|🇱🇸:kdspd3xjfdd4|🇱🇹:u9c3zg7901e9|🇱🇺:u0u77kx7nhcp|🇱🇻:ud17xfee8jgw|🇱🇾:sksmb41m06rw|🇲🇦:evdsg7920f6v|🇲🇨:spv2bdmfdu8q|🇲🇩:u8kjtx42ddfd|🇲🇪:srtfbyuh0nxx|🇲🇫:s4fsxbyqrrg2|🇲🇬:mh9kde1h9njc|🇲🇭:xc2bx6nrzxgn|🇲🇰:srrkwyd7wjny|🇲🇱:egj5vndh9zck|🇲🇲:w5uhxt9p0gg3|🇲🇳:y23fe54cg7pv|🇲🇴:webwrc0hu9s7|🇲🇵:x4xtcsmp8uw3|🇲🇶:ddse737scj6m|🇲🇷:eg8px035uukh|🇲🇸:de5fbbsd8scd|🇲🇹:sq6hrn5z55e1|🇲🇺:mk2ujxsjzrq9|🇲🇻:t8s60xp99t0w|🇲🇼:kv8kse1s4gkh|🇲🇽:9g3w81t7j50q|🇲🇾:w28xbw2xbq5d|🇲🇿:ku9mb6pb7tmf|🇳🇦:k7vjku8q391t|🇳🇨:rsn9r5pzx34w|🇳🇪:s5jspvkuv7b6|🇳🇫:r8xrmfkbspt3|🇳🇬:s1w5tmm1vhu|🇳🇮:d473jn442k6s|🇳🇱:u173zmtys2gg|🇳🇴:u4y008wfgtve|🇳🇵:tv5cd31hr30b|🇳🇷:rxyth8z4rpj8|🇳🇺:rdydz1rcp6d8|🇳🇿:rbsr7dk08zd9|🇴🇲:t7cdjjj|🇵🇦:d1x2wd38yegj|🇵🇪:6q35wz50uwkx|🇵🇫:2svg2jt231p3|🇵🇬:rqbs5f6j0c2f|🇵🇭:wdq9709jey5e|🇵🇰:tt3kccxscyq6|🇵🇱:u3qcnhhs59zb|🇵🇲:fbr541922uru|🇵🇳:35e3rkzg7k31|🇵🇷:de0xssyxf5q9|🇵🇸:sv9jcb8p11f1|🇵🇹:eyckrcntwxuk|🇵🇼:wcrdy2pcrwck|🇵🇾:6ey6wh6t8c20|🇶🇦:ths2hxwyrm61|🇷🇪:mhprzu07euj6|🇷🇴:u81v25sq895r|🇷🇸:srywc9q8751q|🇷🇺:ucfv0n031d7w|🇷🇼:kxthzyc8bmf7|🇸🇦:th0pcu39mqrz|🇸🇧:rw390shcep0q|🇸🇨:mppmqspemem6|🇸🇩:sdz0hvv6hevj|🇸🇪:u6sce0t4hzhe|🇸🇬:w21zdqpk89ty|🇸🇭:5wmg3bkn7fg0|🏴‍☠️:1n7"

/-- `initLUT` (lines 225-232): split `POI` on `|` then on `:` and pack each
geohash at 40-bit precision; the process-wide cache `FLUT` is this value. -/
def FLUT : List (List Char × List Nat) :=
  (splitOnChar (Char.ofNat 124) POI.toList).map (fun p =>
    let q := splitOnChar (Char.ofNat 58) p
    (q.headD [], (packGeo (q.getD 1 []) 40 none).getD []))

/-- Stable insertion before the first strictly greater key. -/
def insertAsc (x : List Char × Nat) :
    List (List Char × Nat) → List (List Char × Nat)
  | [] => [x]
  | y :: t => if y.2 < x.2 then y :: insertAsc x t else x :: y :: t

/-- Stable insertion sort by key, modelling JS `Array.prototype.sort` with
comparator `a[1] - b[1]` (stable per ES2019). -/
def sortAsc : List (List Char × Nat) → List (List Char × Nat)
  | [] => []
  | x :: t => insertAsc x (sortAsc t)

/-- `flagOf(geohash, bits)` (lines 215-222). -/
def flagOf (geohash : List Char) (bits : Nat) : Option (List Char) :=
  (packGeo geohash bits none).map (fun src =>
    ((sortAsc (FLUT.map (fun f => (f.1, xorDistance src f.2)))).headD ([], 0)).1)

/-- The first four bytes of each LUT entry's packed geohash, as a literal
table; `flutF4_eq` below proves it equal to the computed values.  Stating the
pairwise-distinctness check against this literal keeps the kernel from
re-evaluating `FLUT` quadratically. -/
def flutF4 : List (List Nat) :=
  [[135, 103, 183, 134],
   [184, 166, 224, 24],
   [25, 210, 57, 4],
   [153, 131, 0, 157],
   [172, 193, 16, 214],
   [172, 149, 138, 181],
   [248, 90, 67, 30],
   [185, 130, 162, 252],
   [210, 66, 100, 81],
   [12, 0, 0, 0],
   [38, 249, 83, 101],
   [34, 94, 170, 88],
   [90, 52, 38, 81],
   [246, 117, 0, 169],
   [204, 208, 90, 191],
   [218, 112, 58, 11],
   [185, 150, 233, 181],
   [248, 234, 228, 76],
   [140, 205, 22, 195],
   [28, 130, 59, 44],
   [58, 148, 112, 2],
   [205, 209, 141, 143],
   [184, 35, 230, 176],
   [25, 54, 109, 147],
   [178, 79, 169, 150],
   [56, 36, 172, 185],
   [140, 189, 75, 170],
   [44, 167, 239, 199],
   [28, 173, 228, 18],
   [102, 214, 54, 220],
   [204, 212, 105, 165],
   [102, 71, 31, 239],
   [76, 10, 111, 247],
   [89, 127, 153, 129],
   [154, 184, 3, 21],
   [18, 7, 180, 58],
   [58, 181, 212, 18],
   [172, 128, 245, 150],
   [78, 16, 50, 37],
   [51, 126, 243, 23],
   [242, 222, 81, 129],
   [120, 196, 200, 27],
   [242, 62, 139, 232],
   [26, 76, 51, 204],
   [109, 73, 178, 52],
   [2, 214, 74, 179],
   [198, 196, 133, 230],
   [88, 160, 184, 113],
   [188, 147, 7, 212],
   [76, 60, 227, 134],
   [172, 125, 205, 163],
   [44, 104, 96, 187],
   [12, 198, 51, 59],
   [205, 244, 232, 127],
   [204, 208, 77, 235],
   [134, 23, 141, 28],
   [152, 215, 175, 24],
   [90, 56, 169, 218],
   [122, 12, 182, 192],
   [216, 209, 103, 0],
   [122, 40, 157, 127],
   [140, 225, 219, 108],
   [236, 88, 131, 76],
   [152, 178, 1, 157],
   [230, 162, 200, 77],
   [154, 141, 124, 204],
   [56, 91, 226, 247],
   [216, 37, 111, 223],
   [216, 53, 126, 222],
   [237, 199, 249, 50],
   [120, 53, 28, 148],
   [26, 112, 189, 174],
   [186, 17, 49, 212],
   [87, 251, 86, 190],
   [2, 110, 181, 198],
   [125, 28, 18, 254],
   [239, 21, 64, 26],
   [26, 164, 188, 57],
   [88, 0, 137, 200],
   [111, 213, 29, 65],
   [140, 65, 249, 102],
   [248, 223, 125, 76],
   [76, 49, 122, 33],
   [79, 121, 176, 155],
   [77, 253, 255, 52],
   [205, 203, 200, 75],
   [15, 166, 238, 179],
   [141, 77, 120, 250],
   [109, 45, 208, 76],
   [204, 57, 216, 129],
   [24, 220, 49, 48],
   [152, 43, 85, 92],
   [133, 78, 39, 154],
   [201, 253, 164, 135],
   [157, 88, 109, 255],
   [141, 197, 66, 241],
   [12, 249, 210, 160],
   [188, 173, 42, 51],
   [23, 143, 4, 152],
   [140, 48, 62, 185],
   [90, 16, 149, 28],
   [236, 200, 182, 54],
   [90, 76, 30, 44],
   [45, 67, 181, 185],
   [214, 62, 205, 119],
   [111, 157, 158, 80],
   [120, 39, 152, 110],
   [111, 97, 141, 146],
   [57, 211, 103, 146],
   [98, 10, 187, 67],
   [120, 255, 156, 144],
   [57, 122, 48, 187],
   [175, 161, 145, 29],
   [248, 10, 31, 125],
   [79, 241, 251, 59],
   [236, 132, 11, 197],
   [120, 167, 188, 156],
   [157, 158, 67, 22],
   [242, 59, 144, 181],
   [185, 79, 50, 103],
   [220, 144, 62, 43],
   [8, 212, 222, 199],
   [51, 46, 61, 120],
   [172, 21, 211, 166],
   [252, 147, 60, 59],
   [220, 179, 221, 236],
   [57, 6, 175, 68],
   [172, 157, 173, 158],
   [91, 244, 68, 54],
   [252, 32, 165, 45],
   [216, 7, 132, 10],
   [140, 201, 14, 37],
   [26, 88, 61, 140],
   [121, 13, 233, 131],
   [109, 5, 153, 76],
   [146, 225, 202, 70],
   [58, 173, 241, 223],
   [26, 232, 115, 100],
   [154, 133, 211, 93],
   [88, 226, 169, 72],
   [109, 51, 252, 78],
   [184, 110, 161, 216],
   [26, 201, 152, 59],
   [248, 102, 167, 188],
   [152, 56, 220, 149],
   [19, 38, 201, 90],
   [125, 9, 213, 13],
   [248, 94, 201, 61],
   [237, 197, 178, 41],
   [188, 104, 216, 115],
   [94, 12, 215, 10],
   [188, 41, 126, 23],
   [157, 244, 188, 240],
   [140, 225, 118, 198],
   [237, 161, 218, 193],
   [172, 21, 167, 20],
   [216, 26, 120, 105],
   [83, 10, 29, 59],
   [25, 97, 3, 122],
   [114, 35, 137, 91],
   [233, 13, 142, 66],
   [92, 160, 174, 184],
   [82, 167, 169, 76],
   [242, 236, 40, 53],
   [23, 211, 116, 75],
   [184, 68, 92, 183],
   [23, 245, 59, 157],
   [56, 240, 146, 231],
   [140, 156, 17, 41],
   [58, 156, 241, 103],
   [154, 120, 0, 16],
   [121, 151, 197, 70],
   [183, 251, 12, 209],
   [151, 121, 246, 195],
   [87, 225, 123, 152],
   [249, 44, 22, 99],
   [44, 116, 193, 217],
   [198, 142, 194, 127],
   [2, 239, 39, 98],
   [215, 42, 92, 156],
   [156, 217, 116, 64],
   [57, 15, 185, 86],
   [122, 216, 69, 33],
   [78, 221, 66, 66],
   [163, 180, 113, 229],
   [172, 129, 142, 177],
   [120, 167, 184, 20],
   [205, 47, 121, 23],
   [124, 93, 230, 69],
   [166, 121, 195, 161],
   [25, 98, 1, 59],
   [19, 214, 251, 53],
   [26, 133, 45, 10],
   [248, 122, 190, 146],
   [122, 185, 13, 40],
   [178, 103, 248, 253],
   [25, 130, 186, 244],
   [151, 143, 4, 48],
   [179, 214, 105, 113],
   [152, 125, 0, 247],
   [218, 224, 213, 64],
   [92, 132, 207, 108],
   [133, 207, 55, 148],
   [129, 30, 0, 0]]

/-- One bit of the scratch quintet register per `shift`, as a pure value:
`scrBits s x` is the number formed by the next `x` carries of repeated
`shift([s])` calls, most significant first. -/
def scrBits (s : Nat) : Nat → Nat
  | 0 => 0
  | x + 1 => s / 128 % 2 * 2 ^ x + scrBits (2 * s) x

/-- The 5-bit group `j` of a packed value: `V >> 5j mod 32`. -/
def grp (V j : Nat) : Nat := V / 2 ^ (5 * j) % 32

/-- The character string `unpackGeo`'s loop produces from value `V` at `nBits`
precision, before trailing-zero stripping: `nBits / 5` full 5-bit groups, then
one partial group of the top `nBits mod 5` bits padded with low zeros. -/
def unpackChars (V nBits : Nat) : List Char :=
  if nBits = 0 then [GHM.getD 0 '0']
  else
    (List.range (nBits / 5)).map (fun j => GHM.getD (grp V j) '0') ++
      (if nBits % 5 ≠ 0 then
        [GHM.getD (V / 2 ^ (5 * (nBits / 5)) % 2 ^ (nBits % 5) * 2 ^ (5 - nBits % 5)) '0']
       else [])

/-- The byte-wise comparison of `roll`'s loop in the claim's language: every
byte before the last equals the prefix byte exactly, and the last prefix byte
matches under `mask`. -/
def ByteCond (pk pfx : List Nat) (mask : Nat) : Prop :=
  (∀ n < pfx.length - 1, pk.getD n 0 = pfx.getD n 0) ∧
    Nat.land (pk.getD (pfx.length - 1) 0) mask =
      Nat.land (pfx.getD (pfx.length - 1) 0) mask

instance (pk pfx : List Nat) (mask : Nat) : Decidable (ByteCond pk pfx mask) := by
  unfold ByteCond; infer_instance

/-- Modelled from the claim (C4): a packer that consumes the geohash starting
with the most-significant (first) character, uses only the top `nBits mod 5`
bits of that first character when `nBits` is not a multiple of five, and feeds
each used bit most-significant first until `nBits` bits are written. -/
def packGeoClaimOrder (hash : List Char) (nBits0 : Nat) : Option (List Nat) :=
  let nBits := min (hash.length * 5) nBits0
  if nBits < 5 then none
  else
    let tl := (nBits + 4) / 5 - 1
    let bitsOf : Nat → List Nat := fun i =>
      let v := charVal (hash.getD i ' ')
      let x := if i = 0 ∧ nBits % 5 ≠ 0 then nBits % 5 else 5
      (List.range x).map (fun j => v / 2 ^ (4 - j) % 2)
    let allBits := (List.range (tl + 1)).flatMap bitsOf
    some (allBits.foldl (fun b bit => (shiftU8 b bit).1)
      (List.replicate (roundByte nBits) 0))

/-- The used bits of a character value `v` when `x` of its low bits are
consumed, most-significant-of-the-used-bits first. -/
def lfBlock (v x : Nat) : List Nat :=
  (List.range x).map (fun j => v / 2 ^ (x - 1 - j) % 2)

/-- Modelled from the amended claim (C4): consumes the geohash from its last
needed character down to the first; when `nBits mod 5 ≠ 0` only the bottom
`nBits mod 5` bits of that last character are used; each character's used bits
are fed most-significant-of-the-used-bits first. -/
def packGeoLastFirst (hash : List Char) (nBits0 : Nat) : Option (List Nat) :=
  let nBits := min (hash.length * 5) nBits0
  if nBits < 5 then none
  else
    let tl := (nBits + 4) / 5 - 1
    let bitsOf : Nat → List Nat := fun i =>
      lfBlock (charVal (hash.getD i ' '))
        (if i = tl ∧ nBits % 5 ≠ 0 then nBits % 5 else 5)
    some ((((List.range (tl + 1)).reverse).flatMap bitsOf).foldl
      (fun b bit => (shiftU8 b bit).1) (List.replicate (roundByte nBits) 0))

/-- Modelled from the claim (C5): a decoder that `unshift`s the four metadata
bits in the order they were appended — sex-high, sex-low, age-high, age-low —
then unpacks the location. -/
def decodeASLClaimOrder (publicKey : List Nat) (geobits : Nat) :
    Option (Nat × Nat × List Char) :=
  match unshiftA (defensiveCopy publicKey geobits) 0 with
  | (c1, sHi) =>
    match unshiftA c1 0 with
    | (c2, sLo) =>
      match unshiftA c2 0 with
      | (c3, aHi) =>
        match unshiftA c3 0 with
        | (c4, aLo) =>
          (unpackGeo c4 geobits).map
            (fun loc => (aLo + aHi * 2, sLo + sHi * 2, loc))

/-- Modelled from the amended claim (C5): `unshift` pops the most recently
appended bit, so the decoder extracts in reverse append order — age-low,
age-high, sex-low, sex-high — then unpacks the location. -/
def decodeASLRevOrder (publicKey : List Nat) (geobits : Nat) :
    Option (Nat × Nat × List Char) :=
  match unshiftA (defensiveCopy publicKey geobits) 0 with
  | (c1, aLo) =>
    match unshiftA c1 0 with
    | (c2, aHi) =>
      match unshiftA c2 0 with
      | (c3, sLo) =>
        match unshiftA c3 0 with
        | (c4, sHi) =>
          (unpackGeo c4 geobits).map
            (fun loc => (aLo + aHi * 2, sLo + sHi * 2, loc))

/-- A key's leading `geobits + 4` bits (the window `roll`'s masked comparison
constrains) equal the prefix. -/
def KeyMatchesPfx (key : List Nat) (geobits : Nat) (pfx : List Nat) : Prop :=
  leVal (defensiveCopy key geobits) % 2 ^ (geobits + 4) = leVal pfx

/-- Claim C1 as stated, at one input: if the key's leading `geobits + 4` bits
equal the prefix built for `(age, sex, g, geobits)`, then `decodeASL` returns
`(age, sex, g')` with `g'` packing to the same `geobits`-bit pattern as `g`. -/
def C1Claim (age sex : Nat) (g : List Char) (geobits : Nat) (key : List Nat) : Prop :=
  age < 4 → sex < 4 → ValidGeo g → 5 ≤ min (5 * g.length) geobits →
    key.length = 32 → Bytes key →
    ∀ pfx, buildPfx age sex g geobits = some pfx → KeyMatchesPfx key geobits pfx →
      ∃ g' bq bg, decodeASL key geobits = some (age, sex, g') ∧
        packGeo g' geobits none = some bq ∧ packGeo g geobits none = some bg ∧
        leVal bq = leVal bg

/-- Claim C2 as stated, at one input: the geohash round-trips through
`packGeo`/`unpackGeo` at full precision up to dropped trailing `'0'`s. -/
def C2Claim (h : List Char) : Prop :=
  ValidGeo h →
    ∃ b g' k, packGeo h (5 * h.length) none = some b ∧
      unpackGeo b (5 * h.length) = some g' ∧ h = g' ++ List.replicate k '0'

/-! ## Basic lemmas about byte values -/

theorem bytes_nil : Bytes [] := by intro b hb; cases hb

theorem bytes_cons {b : Nat} {t : List Nat} :
    Bytes (b :: t) ↔ b < 256 ∧ Bytes t := by
  constructor
  · intro h; exact ⟨h b (List.mem_cons_self _ _), fun x hx => h x (List.mem_cons_of_mem _ hx)⟩
  · rintro ⟨h1, h2⟩ x hx
    rcases List.mem_cons.mp hx with rfl | hx
    · exact h1
    · exact h2 x hx

theorem bytes_replicate (n : Nat) : Bytes (List.replicate n 0) := by
  intro b hb
  rcases List.eq_of_mem_replicate hb with rfl
  omega

theorem leVal_lt {l : List Nat} (h : Bytes l) : leVal l < 256 ^ l.length := by
  induction l with
  | nil => simp [leVal]
  | cons b t ih =>
    rcases bytes_cons.mp h with ⟨hb, ht⟩
    have h2 := ih ht
    simp only [leVal, List.length_cons, pow_succ]
    have : 256 * (leVal t + 1) ≤ 256 * 256 ^ t.length := Nat.mul_le_mul_left _ h2
    omega

theorem leVal_zero {l : List Nat} (h : ∀ b ∈ l, b = 0) : leVal l = 0 := by
  induction l with
  | nil => rfl
  | cons b t ih =>
    have hb : b = 0 := h b (List.mem_cons_self _ _)
    have h2 := ih (fun x hx => h x (List.mem_cons_of_mem _ hx))
    simp [leVal, hb, h2]

theorem leVal_getD {l : List Nat} (h : Bytes l) :
    ∀ i, l.getD i 0 = leVal l / 256 ^ i % 256 := by
  induction l with
  | nil => intro i; simp [leVal]
  | cons b t ih =>
    intro i
    rcases bytes_cons.mp h with ⟨hb, ht⟩
    cases i with
    | zero => simp [leVal, Nat.add_mul_mod_self_left, Nat.mod_eq_of_lt hb]
    | succ i =>
      have hdiv : leVal (b :: t) / 256 ^ (i + 1) = leVal t / 256 ^ i := by
        have h1 : leVal (b :: t) / 256 = leVal t := by
          simp only [leVal]; omega
        rw [pow_succ', ← Nat.div_div_eq_div_mul, h1]
      simp only [List.getD_cons_succ, hdiv]
      exact ih ht i

theorem bytes_ext {a b : List Nat} (ha : Bytes a) (hb : Bytes b)
    (hlen : a.length = b.length) (hval : leVal a = leVal b) : a = b := by
  induction a generalizing b with
  | nil =>
    cases b with
    | nil => rfl
    | cons x t => simp at hlen
  | cons x t ih =>
    cases b with
    | nil => simp at hlen
    | cons y s =>
      rcases bytes_cons.mp ha with ⟨hx, ht⟩
      rcases bytes_cons.mp hb with ⟨hy, hs⟩
      simp only [leVal] at hval
      have hxy : x = y := by omega
      subst hxy
      have hts : leVal t = leVal s := by omega
      simp only [List.length_cons] at hlen
      rw [ih ht hs (by omega) hts]

theorem leVal_take (l : List Nat) (hB : Bytes l) : ∀ m : Nat,
    leVal (l.take m) = leVal l % 256 ^ m := by
  induction l with
  | nil => intro m; simp [leVal]
  | cons b t ih =>
    intro m
    rcases bytes_cons.mp hB with ⟨hb, ht⟩
    cases m with
    | zero => simp [leVal, Nat.mod_one]
    | succ m =>
      have hmod : leVal t % 256 ^ m < 256 ^ m :=
        Nat.mod_lt _ (Nat.pow_pos (by omega))
      have key : b + 256 * leVal t =
          b + 256 * (leVal t % 256 ^ m) + 256 ^ m * 256 * (leVal t / 256 ^ m) := by
        conv_lhs => rw [← Nat.div_add_mod (leVal t) (256 ^ m)]
        ring
      simp only [List.take_succ_cons, leVal, ih ht m]
      rw [pow_succ]
      conv_rhs => rw [key]
      rw [Nat.add_mul_mod_self_left]
      exact (Nat.mod_eq_of_lt (by omega)).symm

/-! ## Value specifications of the shift-register primitives -/

theorem bit01_le (inp : Nat) : bit01 inp ≤ 1 := by
  unfold bit01; split <;> omega

theorem shiftU8Go_spec (x : List Nat) (c : Nat) (hc : c ≤ 1) (hx : Bytes x) :
    (shiftU8Go x c).1.length = x.length ∧ Bytes (shiftU8Go x c).1 ∧
      (shiftU8Go x c).2 ≤ 1 ∧
      2 * leVal x + c = (shiftU8Go x c).2 * 256 ^ x.length + leVal (shiftU8Go x c).1 := by
  induction x generalizing c with
  | nil => exact ⟨rfl, bytes_nil, by simpa [shiftU8Go] using hc, by simp [shiftU8Go, leVal]⟩
  | cons b t ih =>
    rcases bytes_cons.mp hx with ⟨hb, ht⟩
    obtain ⟨ihl, ihB, ihc, ihv⟩ := ih (b / 128 % 2) (by omega) ht
    rcases hgo : shiftU8Go t (b / 128 % 2) with ⟨t2, cout⟩
    rw [hgo] at ihl ihB ihc ihv
    simp only at ihl ihB ihc ihv
    simp only [shiftU8Go, hgo, List.length_cons, leVal]
    refine ⟨by simp [ihl], bytes_cons.mpr ⟨by omega, ihB⟩, ihc, ?_⟩
    rw [pow_succ]
    have hsplit : cout = 0 ∨ cout = 1 := by omega
    rcases hsplit with rfl | rfl <;> simp only [Nat.one_mul, Nat.zero_mul] at ihv ⊢ <;> omega

theorem shiftU8_spec (x : List Nat) (inp : Nat) (hx : Bytes x) :
    (shiftU8 x inp).1.length = x.length ∧ Bytes (shiftU8 x inp).1 ∧
      (shiftU8 x inp).2 ≤ 1 ∧
      2 * leVal x + bit01 inp =
        (shiftU8 x inp).2 * 256 ^ x.length + leVal (shiftU8 x inp).1 :=
  shiftU8Go_spec x (bit01 inp) (bit01_le inp) hx

theorem lor_small : ∀ r < 2, ∀ m < 128, Nat.lor (r * 128) m = r * 128 + m := by decide

theorem unshiftA_spec (x : List Nat) (inp : Nat) (hx : Bytes x) :
    (unshiftA x inp).1.length = x.length ∧ Bytes (unshiftA x inp).1 ∧
      (unshiftA x inp).2 ≤ 1 ∧
      2 * leVal (unshiftA x inp).1 + (unshiftA x inp).2 =
        leVal x + bit01 inp * 256 ^ x.length := by
  induction x with
  | nil => exact ⟨rfl, bytes_nil, by simpa [unshiftA] using bit01_le inp, by simp [unshiftA, leVal]⟩
  | cons b t ih =>
    rcases bytes_cons.mp hx with ⟨hb, ht⟩
    obtain ⟨ihl, ihB, ihc, ihv⟩ := ih ht
    rcases hgo : unshiftA t inp with ⟨t2, cin⟩
    rw [hgo] at ihl ihB ihc ihv
    simp only at ihl ihB ihc ihv
    simp only [unshiftA, hgo, List.length_cons, leVal]
    have hlor : Nat.lor (cin * 128) (b / 2) = cin * 128 + b / 2 :=
      lor_small cin (by omega) (b / 2) (by omega)
    refine ⟨by simp [ihl], bytes_cons.mpr ⟨by omega, ihB⟩, by omega, ?_⟩
    rw [hlor, pow_succ]
    have h01 : bit01 inp = 0 ∨ bit01 inp = 1 := by
      have := bit01_le inp; omega
    rcases h01 with h01 | h01 <;> rw [h01] at ihv ⊢ <;>
      simp only [Nat.one_mul, Nat.zero_mul] at ihv ⊢ <;> omega

theorem unshift_shift_cancel (buf : List Nat) (b : Nat) (hB : Bytes buf) (hb : b ≤ 1) :
    unshiftA (shiftU8 buf b).1 (shiftU8 buf b).2 = (buf, b) := by
  obtain ⟨hl, hBs, hc, hv⟩ := shiftU8_spec buf b hB
  obtain ⟨hl2, hB2, hc2, hv2⟩ := unshiftA_spec (shiftU8 buf b).1 (shiftU8 buf b).2 hBs
  have hb01 : bit01 b = b := by unfold bit01; split <;> omega
  rw [hb01] at hv
  have hcc : bit01 (shiftU8 buf b).2 = (shiftU8 buf b).2 := by
    unfold bit01; split <;> omega
  rw [hcc, hl] at hv2
  have hvlt : leVal buf < 256 ^ buf.length := leVal_lt hB
  have hvlt2 : leVal (unshiftA (shiftU8 buf b).1 (shiftU8 buf b).2).1 <
      256 ^ buf.length := by
    have h3 := leVal_lt hB2
    rwa [hl2, hl] at h3
  have hveq : leVal (unshiftA (shiftU8 buf b).1 (shiftU8 buf b).2).1 = leVal buf := by
    omega
  have hsnd : (unshiftA (shiftU8 buf b).1 (shiftU8 buf b).2).2 = b := by omega
  have hfst : (unshiftA (shiftU8 buf b).1 (shiftU8 buf b).2).1 = buf :=
    bytes_ext hB2 hB (by rw [hl2, hl]) hveq
  calc unshiftA (shiftU8 buf b).1 (shiftU8 buf b).2
      = ((unshiftA (shiftU8 buf b).1 (shiftU8 buf b).2).1,
         (unshiftA (shiftU8 buf b).1 (shiftU8 buf b).2).2) := Prod.mk.eta.symm
  _ = (buf, b) := by rw [hfst, hsnd]

/-- C3: `c = shift(buf, b); unshift(buf, c)` restores `buf` to its pre-shift
state, and the `unshift` call returns `b`, for every byte buffer `buf` and bit
`b ∈ {0, 1}`. -/
theorem shift_unshift_inverse (buf : List Nat) (b : Nat) (hB : Bytes buf) (hb : b ≤ 1) :
    (unshiftA (shiftU8 buf b).1 (shiftU8 buf b).2).1 = buf ∧
      (unshiftA (shiftU8 buf b).1 (shiftU8 buf b).2).2 = b := by
  rw [unshift_shift_cancel buf b hB hb]
  exact ⟨rfl, rfl⟩

/-- C3 witness at `buf = [171, 200]`, `b = 1`. -/
theorem shift_unshift_inverse_witness :
    Bytes [171, 200] ∧ (1 : Nat) ≤ 1 ∧
      ((unshiftA (shiftU8 [171, 200] 1).1 (shiftU8 [171, 200] 1).2).1 = [171, 200] ∧
        (unshiftA (shiftU8 [171, 200] 1).1 (shiftU8 [171, 200] 1).2).2 = 1) :=
  ⟨by decide, by decide, shift_unshift_inverse [171, 200] 1 (by decide) (by decide)⟩

/-! ## The geohash alphabet -/

theorem GHM_length : GHM.length = 32 := by decide

theorem charVal_lt (c : Char) : charVal c < 32 := by
  unfold charVal GHU
  split
  · rename_i h
    simpa [GHM_length] using List.indexOf_lt_length.mpr h
  · simp

theorem geoVal_lt (l : List Char) : geoVal l < 32 ^ l.length := by
  induction l with
  | nil => simp [geoVal]
  | cons c t ih =>
    have h1 : charVal c < 32 := charVal_lt c
    simp only [geoVal, List.length_cons, pow_succ]
    have : 32 * (geoVal t + 1) ≤ 32 * 32 ^ t.length := Nat.mul_le_mul_left _ ih
    omega

theorem geoVal_append : ∀ (a b : List Char),
    geoVal (a ++ b) = geoVal a + 32 ^ a.length * geoVal b
  | [], b => by simp [geoVal]
  | c :: t, b => by
    have ih := geoVal_append t b
    show geoVal (c :: (t ++ b)) = _
    simp only [geoVal, List.length_cons, pow_succ]
    rw [ih]
    ring

theorem gv_take_succ (h : List Char) : ∀ k, k < h.length →
    geoVal (h.take (k + 1)) = geoVal (h.take k) + charVal (h.getD k ' ') * 32 ^ k := by
  induction h with
  | nil => intro k hk; simp at hk
  | cons c t ih =>
    intro k hk
    cases k with
    | zero => simp [geoVal]
    | succ k =>
      simp only [List.take_succ_cons, geoVal, List.getD_cons_succ,
        ih k (by simpa using hk), pow_succ]
      ring

/-! ## The scratch quintet register -/

theorem shiftArr_single (s : Nat) : shiftArr [s] 0 = ([2 * s], s / 128 % 2) := by
  simp [shiftArr, shiftArrGo, bit01]

theorem padBits_single : ∀ (n : Nat) (s : Nat), padBits [s] n = [s * 2 ^ n] := by
  intro n
  induction n with
  | zero => intro s; simp [padBits]
  | succ n ih =>
    intro s
    simp only [padBits, shiftArr_single, ih (2 * s)]
    rw [pow_succ]
    ring_nf

set_option maxRecDepth 10000 in
theorem scrBits_top : ∀ x < 6, ∀ v < 256, scrBits (v * 2 ^ (8 - x)) x = v % 2 ^ x := by
  decide

/-! ## Value specification of `packGeo` -/

theorem packPush_len_bytes : ∀ (x : Nat) (bits buf : List Nat) (w nBits : Nat),
    Bytes buf → Bytes (packPush buf bits x w nBits).1 ∧
      (packPush buf bits x w nBits).1.length = buf.length := by
  intro x
  induction x with
  | zero => intro bits buf w nBits hB; exact ⟨hB, rfl⟩
  | succ x ih =>
    intro bits buf w nBits hB
    rcases hsa : shiftArr bits 0 with ⟨bits2, b⟩
    obtain ⟨hl, hBs, _, _⟩ := shiftU8_spec buf b hB
    rcases hsu : shiftU8 buf b with ⟨buf2, c⟩
    rw [hsu] at hl hBs
    simp only at hl hBs
    simp only [packPush, hsa, hsu]
    split
    · exact ⟨hBs, hl⟩
    · obtain ⟨h1, h2⟩ := ih bits2 buf2 (w + 1) nBits hBs
      exact ⟨h1, h2.trans hl⟩

theorem packPush_spec : ∀ (x : Nat) (s : Nat) (buf : List Nat) (w nBits : Nat),
    Bytes buf → w + x ≤ nBits →
    (packPush buf [s] x w nBits).2 = w + x ∧
      leVal (packPush buf [s] x w nBits).1 =
        (leVal buf * 2 ^ x + scrBits s x) % 256 ^ buf.length := by
  intro x
  induction x with
  | zero =>
    intro s buf w nBits hB hw
    refine ⟨rfl, ?_⟩
    simp only [packPush, scrBits, pow_zero, Nat.mul_one, Nat.add_zero]
    exact (Nat.mod_eq_of_lt (leVal_lt hB)).symm
  | succ x ih =>
    intro s buf w nBits hB hw
    obtain ⟨hl, hBs, hc, hv⟩ := shiftU8_spec buf (s / 128 % 2) hB
    have hb01 : bit01 (s / 128 % 2) = s / 128 % 2 := by
      unfold bit01; split <;> omega
    rw [hb01] at hv
    have hvlt : leVal (shiftU8 buf (s / 128 % 2)).1 < 256 ^ buf.length := by
      have h3 := leVal_lt hBs
      rwa [hl] at h3
    have hval' : leVal (shiftU8 buf (s / 128 % 2)).1 =
        (2 * leVal buf + s / 128 % 2) % 256 ^ buf.length := by
      have hfull : 2 * leVal buf + s / 128 % 2 <  2 * 256 ^ buf.length := by
        have := leVal_lt hB
        omega
      rcases (by omega : (shiftU8 buf (s / 128 % 2)).2 = 0 ∨
          (shiftU8 buf (s / 128 % 2)).2 = 1) with h0 | h0 <;> rw [h0] at hv
      · rw [Nat.mod_eq_of_lt
          (show 2 * leVal buf + s / 128 % 2 < 256 ^ buf.length by omega)]
        omega
      · have hsum : 2 * leVal buf + s / 128 % 2 =
            256 ^ buf.length + leVal (shiftU8 buf (s / 128 % 2)).1 := by omega
        rw [hsum, Nat.add_mod_left, Nat.mod_eq_of_lt hvlt]
    rcases hsu : shiftU8 buf (s / 128 % 2) with ⟨buf2, c⟩
    rw [hsu] at hl hBs hval'
    simp only at hl hBs hval'
    simp only [packPush, shiftArr_single, hsu]
    split
    · rename_i hstop
      have hx0 : x = 0 := by omega
      subst hx0
      refine ⟨rfl, ?_⟩
      simp only [scrBits, pow_zero, pow_one, Nat.mul_one, Nat.add_zero]
      rw [hval']
      ring_nf
    · rename_i hcont
      obtain ⟨ih2, ih1⟩ := ih (2 * s) buf2 (w + 1) nBits hBs (by omega)
      refine ⟨by rw [ih2]; omega, ?_⟩
      rw [ih1, hl, hval']
      have hmodeq : ((2 * leVal buf + s / 128 % 2) % 256 ^ buf.length * 2 ^ x +
          scrBits (2 * s) x) % 256 ^ buf.length =
          ((2 * leVal buf + s / 128 % 2) * 2 ^ x + scrBits (2 * s) x) %
            256 ^ buf.length :=
        Nat.ModEq.add_right _ (Nat.ModEq.mul_right _ (Nat.mod_modEq _ _))
      rw [hmodeq]
      congr 1
      simp only [scrBits, pow_succ]
      ring

theorem pow8_roundByte (m : Nat) : m ≤ 8 * roundByte m := by
  unfold roundByte; split <;> omega

theorem roundByte_pos {m : Nat} (h : 1 ≤ m) : 1 ≤ roundByte m := by
  unfold roundByte; split <;> omega

theorem pow2_le_pow256 {n len : Nat} (h : n ≤ 8 * len) : 2 ^ n ≤ 256 ^ len := by
  calc 2 ^ n ≤ 2 ^ (8 * len) := Nat.pow_le_pow_right (by omega) h
  _ = 256 ^ len := by
      rw [Nat.pow_mul]

theorem packGeoLoop_len_bytes (hash : List Char) (nBits tl : Nat) :
    ∀ (k w : Nat) (buf : List Nat), Bytes buf →
      Bytes (packGeoLoop hash nBits tl k w buf).1 ∧
        (packGeoLoop hash nBits tl k w buf).1.length = buf.length := by
  intro k
  induction k with
  | zero => intro w buf hB; exact ⟨hB, rfl⟩
  | succ k ih =>
    intro w buf hB
    simp only [packGeoLoop]
    rcases hcond : (if k = tl ∧ nBits % 5 ≠ 0 then
        (nBits % 5, padBits [charVal (hash.getD k ' ') * 8] (5 - nBits % 5))
      else (5, [charVal (hash.getD k ' ') * 8]) : Nat × List Nat) with ⟨x, bits1⟩
    obtain ⟨hpB, hpl⟩ := packPush_len_bytes x bits1 buf w nBits hB
    rcases hpp : packPush buf bits1 x w nBits with ⟨buf2, w2⟩
    rw [hpp] at hpB hpl
    simp only at hpB hpl
    obtain ⟨h1, h2⟩ := ih w2 buf2 hpB
    exact ⟨h1, h2.trans hpl⟩

theorem packGeoLoop_spec (hash : List Char) (nBits tl : Nat)
    (htl : tl < hash.length) :
    ∀ (k : Nat), k ≤ tl → ∀ (w : Nat) (buf : List Nat), Bytes buf →
      w + 5 * k = nBits →
      leVal (packGeoLoop hash nBits tl k w buf).1 =
        (leVal buf * 2 ^ (5 * k) + geoVal (hash.take k)) % 256 ^ buf.length := by
  intro k
  induction k with
  | zero =>
    intro _ w buf hB hw
    simp only [packGeoLoop, List.take_zero, geoVal, Nat.mul_zero, pow_zero,
      Nat.mul_one, Nat.add_zero]
    exact (Nat.mod_eq_of_lt (leVal_lt hB)).symm
  | succ k ih =>
    intro hk w buf hB hw
    have hne : ¬(k = tl ∧ nBits % 5 ≠ 0) := by
      intro ⟨h1, _⟩; omega
    simp only [packGeoLoop, if_neg hne]
    obtain ⟨hps, hpv⟩ := packPush_spec 5 (charVal (hash.getD k ' ') * 8) buf w nBits
      hB (by omega)
    obtain ⟨hpB, hpl⟩ := packPush_len_bytes 5 [charVal (hash.getD k ' ') * 8]
      buf w nBits hB
    rcases hpp : packPush buf [charVal (hash.getD k ' ') * 8] 5 w nBits with ⟨buf2, w2⟩
    rw [hpp] at hps hpv hpB hpl
    simp only at hps hpv hpB hpl
    have hscr : scrBits (charVal (hash.getD k ' ') * 8) 5 = charVal (hash.getD k ' ') := by
      have h32 := charVal_lt (hash.getD k ' ')
      exact (scrBits_top 5 (by omega) _ (by omega)).trans
        (Nat.mod_eq_of_lt (by simpa using h32))
    subst hps
    rw [ih (by omega) (w + 5) buf2 hpB (by omega), hpl, hpv, hscr]
    have hmodeq : ((leVal buf * 2 ^ 5 + charVal (hash.getD k ' ')) % 256 ^ buf.length *
          2 ^ (5 * k) + geoVal (hash.take k)) % 256 ^ buf.length =
        ((leVal buf * 2 ^ 5 + charVal (hash.getD k ' ')) * 2 ^ (5 * k) +
          geoVal (hash.take k)) % 256 ^ buf.length :=
      Nat.ModEq.add_right _ (Nat.ModEq.mul_right _ (Nat.mod_modEq _ _))
    rw [hmodeq]
    congr 1
    rw [gv_take_succ hash k (by omega)]
    have hp : 2 ^ (5 * (k + 1)) = 2 ^ (5 * k) * 2 ^ 5 := by
      rw [← pow_add]; ring_nf
    rw [hp]
    have h32k : (32 : Nat) ^ k = 2 ^ (5 * k) := by
      rw [show (32 : Nat) = 2 ^ 5 from rfl, ← pow_mul]
    rw [h32k]
    ring

theorem geoVal_take_le (hash : List Char) (k : Nat) (hk : k ≤ hash.length) :
    geoVal (hash.take k) < 32 ^ k := by
  have h1 := geoVal_lt (hash.take k)
  rwa [List.length_take, Nat.min_eq_left hk] at h1

theorem pow32_pow2 (k : Nat) : (32 : Nat) ^ k = 2 ^ (5 * k) := by
  rw [show (32 : Nat) = 2 ^ 5 from rfl, ← pow_mul]

/-- Decomposition of `geoVal hash mod 2 ^ nBits` into the truncated tail
character and the fully-used lower characters, matching what the packing loop
computes. -/
theorem geoVal_split (hash : List Char) (nBits : Nat) (h5 : 5 ≤ nBits)
    (hle : nBits ≤ 5 * hash.length) :
    charVal (hash.getD ((nBits + 4) / 5 - 1) ' ') % 2 ^ (nBits - 5 * ((nBits + 4) / 5 - 1)) *
        2 ^ (5 * ((nBits + 4) / 5 - 1)) + geoVal (hash.take ((nBits + 4) / 5 - 1)) =
      geoVal hash % 2 ^ nBits := by
  set tl := (nBits + 4) / 5 - 1 with htl
  set x := nBits - 5 * tl with hx
  set v := charVal (hash.getD tl ' ') with hv
  have htlr : 5 * tl + x = nBits ∧ 1 ≤ x ∧ x ≤ 5 := by omega
  have htllen : tl < hash.length := by omega
  have hvlt : v < 32 := charVal_lt _
  -- split the geohash at the tail character
  have hsplit : geoVal hash % 2 ^ nBits = geoVal (hash.take (tl + 1)) % 2 ^ nBits := by
    conv_lhs => rw [← List.take_append_drop (tl + 1) hash, geoVal_append]
    rw [List.length_take, Nat.min_eq_left (by omega), pow32_pow2]
    have hge : nBits ≤ 5 * (tl + 1) := by omega
    rw [show 5 * (tl + 1) = nBits + (5 * (tl + 1) - nBits) from by omega, pow_add]
    rw [show geoVal (hash.take (tl + 1)) +
        2 ^ nBits * 2 ^ (5 * (tl + 1) - nBits) * geoVal (hash.drop (tl + 1)) =
        geoVal (hash.take (tl + 1)) +
          2 ^ nBits * (2 ^ (5 * (tl + 1) - nBits) * geoVal (hash.drop (tl + 1)))
      from by ring]
    rw [Nat.add_mul_mod_self_left]
  rw [hsplit, gv_take_succ hash tl htllen, ← hv]
  -- peel the unused high bits of the tail character
  have hvsplit : v = 2 ^ x * (v / 2 ^ x) + v % 2 ^ x := (Nat.div_add_mod v (2 ^ x)).symm
  have hlow : geoVal (hash.take tl) < 2 ^ (5 * tl) := by
    have := geoVal_take_le hash tl (by omega)
    rwa [pow32_pow2] at this
  have hkey : geoVal (hash.take tl) + v * 32 ^ tl =
      v % 2 ^ x * 2 ^ (5 * tl) + geoVal (hash.take tl) + 2 ^ nBits * (v / 2 ^ x) := by
    conv_lhs => rw [hvsplit]
    rw [pow32_pow2, show (2:Nat) ^ nBits = 2 ^ (5 * tl) * 2 ^ x from by
      rw [← pow_add]; congr 1; omega]
    ring
  rw [hkey, Nat.add_mul_mod_self_left]
  have hbound : v % 2 ^ x * 2 ^ (5 * tl) + geoVal (hash.take tl) < 2 ^ nBits := by
    have hm : v % 2 ^ x < 2 ^ x := Nat.mod_lt _ (Nat.pow_pos (by omega))
    have h1 : v % 2 ^ x * 2 ^ (5 * tl) ≤ (2 ^ x - 1) * 2 ^ (5 * tl) :=
      Nat.mul_le_mul_right _ (by omega)
    have h2 : (2 ^ x - 1) * 2 ^ (5 * tl) + 2 ^ (5 * tl) = 2 ^ nBits := by
      have hp : 2 ^ x * 2 ^ (5 * tl) = 2 ^ nBits := by
        rw [← pow_add]; congr 1; omega
      have hxpos : 1 ≤ 2 ^ x := Nat.one_le_two_pow
      calc (2 ^ x - 1) * 2 ^ (5 * tl) + 2 ^ (5 * tl)
          = (2 ^ x - 1 + 1) * 2 ^ (5 * tl) := by ring
      _ = 2 ^ x * 2 ^ (5 * tl) := by rw [Nat.sub_add_cancel hxpos]
      _ = 2 ^ nBits := hp
    omega
  exact (Nat.mod_eq_of_lt hbound).symm

/-- `packGeo` into a caller-supplied all-zero buffer: succeeds and produces
the little-endian value `geoVal hash mod 2 ^ nBits`. -/
theorem packGeo_val (hash : List Char) (nBits0 : Nat) (buf0 : List Nat)
    (hz : ∀ b ∈ buf0, b = 0)
    (h5 : 5 ≤ min (hash.length * 5) nBits0)
    (hlen : min (hash.length * 5) nBits0 ≤ 8 * buf0.length) :
    ∃ out, packGeo hash nBits0 (some buf0) = some out ∧ out.length = buf0.length ∧
      Bytes out ∧ leVal out = geoVal hash % 2 ^ min (hash.length * 5) nBits0 := by
  set nE := min (hash.length * 5) nBits0 with hnE
  set tl := (nE + 4) / 5 - 1 with htl
  have hB0 : Bytes buf0 := fun b hb => by rw [hz b hb]; omega
  have hV0 : leVal buf0 = 0 := leVal_zero hz
  have htllen : tl < hash.length := by omega
  have hlenpos : 1 ≤ buf0.length := by
    by_contra h
    have : buf0.length = 0 := by omega
    omega
  have hMle : 2 ^ nE ≤ 256 ^ buf0.length := pow2_le_pow256 hlen
  have hloop : leVal (packGeoLoop hash nE tl (tl + 1) 0 buf0).1 =
      geoVal hash % 2 ^ nE := by
    have hv32 : charVal (hash.getD tl ' ') < 32 := charVal_lt _
    simp only [packGeoLoop]
    rcases hr : decide (nE % 5 = 0) with hdec | hdec
    · -- nBits % 5 ≠ 0 : truncated tail character
      have hr' : nE % 5 ≠ 0 := by simpa using hr
      rw [if_pos (show _ by simp [hr']), padBits_single]
      obtain ⟨hps, hpv⟩ := packPush_spec (nE % 5)
        (charVal (hash.getD tl ' ') * 8 * 2 ^ (5 - nE % 5)) buf0 0 nE hB0 (by omega)
      obtain ⟨hpB, hpl⟩ := packPush_len_bytes (nE % 5) _ buf0 0 nE hB0
      rcases hpp : packPush buf0 [charVal (hash.getD tl ' ') * 8 * 2 ^ (5 - nE % 5)]
        (nE % 5) 0 nE with ⟨buf2, w2⟩
      rw [hpp] at hps hpv hpB hpl
      simp only at hps hpv hpB hpl
      subst hps
      rw [packGeoLoop_spec hash nE tl htllen tl (by omega) (0 + nE % 5) buf2 hpB
        (by omega), hpl, hpv, hV0]
      have hscr : scrBits (charVal (hash.getD tl ' ') * 8 * 2 ^ (5 - nE % 5)) (nE % 5) =
          charVal (hash.getD tl ' ') % 2 ^ (nE % 5) := by
        have hform : charVal (hash.getD tl ' ') * 8 * 2 ^ (5 - nE % 5) =
            charVal (hash.getD tl ' ') * 2 ^ (8 - nE % 5) := by
          rw [show (8 : Nat) = 2 ^ 3 from rfl, Nat.mul_assoc, ← pow_add]
          congr 2
          omega
        rw [hform]
        exact scrBits_top (nE % 5) (by omega) _ (by omega)
      rw [hscr]
      have hsmall : charVal (hash.getD tl ' ') % 2 ^ (nE % 5) < 256 ^ buf0.length := by
        have h1 : charVal (hash.getD tl ' ') % 2 ^ (nE % 5) < 2 ^ (nE % 5) :=
          Nat.mod_lt _ (Nat.pow_pos (by omega))
        have h2 : (2:Nat) ^ (nE % 5) ≤ 2 ^ nE := Nat.pow_le_pow_right (by omega) (by omega)
        omega
      rw [Nat.zero_mul, Nat.zero_add, Nat.mod_eq_of_lt hsmall]
      have hgs := geoVal_split hash nE (by omega) (by omega)
      rw [show nE - 5 * ((nE + 4) / 5 - 1) = nE % 5 from by omega] at hgs
      rw [← htl] at hgs
      rw [hgs]
      exact Nat.mod_eq_of_lt (by omega)
    · -- nBits % 5 = 0 : full tail character
      have hr' : nE % 5 = 0 := by simpa using hr
      rw [if_neg (show _ by simp [hr'])]
      obtain ⟨hps, hpv⟩ := packPush_spec 5 (charVal (hash.getD tl ' ') * 8) buf0 0 nE
        hB0 (by omega)
      obtain ⟨hpB, hpl⟩ := packPush_len_bytes 5 _ buf0 0 nE hB0
      rcases hpp : packPush buf0 [charVal (hash.getD tl ' ') * 8] 5 0 nE with ⟨buf2, w2⟩
      rw [hpp] at hps hpv hpB hpl
      simp only at hps hpv hpB hpl
      subst hps
      rw [packGeoLoop_spec hash nE tl htllen tl (by omega) (0 + 5) buf2 hpB (by omega),
        hpl, hpv, hV0]
      have hscr : scrBits (charVal (hash.getD tl ' ') * 8) 5 =
          charVal (hash.getD tl ' ') := by
        exact (scrBits_top 5 (by omega) _ (by omega)).trans
          (Nat.mod_eq_of_lt (by simpa using hv32))
      rw [hscr]
      have hsmall : charVal (hash.getD tl ' ') < 256 ^ buf0.length := by
        have h2 : (32:Nat) ≤ 2 ^ nE := by
          calc (32:Nat) = 2 ^ 5 := rfl
          _ ≤ 2 ^ nE := Nat.pow_le_pow_right (by omega) (by omega)
        omega
      rw [Nat.zero_mul, Nat.zero_add, Nat.mod_eq_of_lt hsmall]
      have hgs := geoVal_split hash nE (by omega) (by omega)
      rw [show nE - 5 * ((nE + 4) / 5 - 1) = 5 from by omega] at hgs
      rw [← htl] at hgs
      rw [show charVal (hash.getD tl ' ') % 2 ^ 5 = charVal (hash.getD tl ' ') from
        Nat.mod_eq_of_lt (by simpa using hv32)] at hgs
      rw [hgs]
      exact Nat.mod_eq_of_lt (by omega)
  obtain ⟨hlB, hll⟩ := packGeoLoop_len_bytes hash nE tl (tl + 1) 0 buf0 hB0
  refine ⟨(packGeoLoop hash nE tl (tl + 1) 0 buf0).1, ?_, hll, hlB, hloop⟩
  unfold packGeo
  rw [← hnE, if_neg (by omega)]
  rfl

/-- `packGeo` with no destination buffer. -/
theorem packGeo_val_none (hash : List Char) (nBits0 : Nat)
    (h5 : 5 ≤ min (hash.length * 5) nBits0) :
    ∃ out, packGeo hash nBits0 none = some out ∧
      out.length = roundByte (min (hash.length * 5) nBits0) ∧
      Bytes out ∧ leVal out = geoVal hash % 2 ^ min (hash.length * 5) nBits0 := by
  have heq : packGeo hash nBits0 none =
      packGeo hash nBits0
        (some (List.replicate (roundByte (min (hash.length * 5) nBits0)) 0)) := by
    unfold packGeo
    rfl
  rw [heq]
  obtain ⟨out, h1, h2, h3, h4⟩ := packGeo_val hash nBits0
    (List.replicate (roundByte (min (hash.length * 5) nBits0)) 0)
    (fun b hb => List.eq_of_mem_replicate hb) h5
    (by rw [List.length_replicate]; exact pow8_roundByte _)
  exact ⟨out, h1, by rw [h2, List.length_replicate], h3, h4⟩

theorem shiftU8_val (x : List Nat) (inp : Nat) (hx : Bytes x) :
    leVal (shiftU8 x inp).1 = (2 * leVal x + bit01 inp) % 256 ^ x.length ∧
      Bytes (shiftU8 x inp).1 ∧ (shiftU8 x inp).1.length = x.length := by
  obtain ⟨hl, hB, hc, hv⟩ := shiftU8_spec x inp hx
  refine ⟨?_, hB, hl⟩
  have hvlt : leVal (shiftU8 x inp).1 < 256 ^ x.length := by
    have h1 := leVal_lt hB
    rwa [hl] at h1
  have hfull : 2 * leVal x + bit01 inp < 2 * 256 ^ x.length := by
    have h1 := leVal_lt hx
    have h2 := bit01_le inp
    omega
  rcases (by omega : (shiftU8 x inp).2 = 0 ∨ (shiftU8 x inp).2 = 1) with h0 | h0 <;>
    rw [h0] at hv
  · rw [Nat.mod_eq_of_lt (show 2 * leVal x + bit01 inp < 256 ^ x.length by omega)]
    omega
  · have hsum : 2 * leVal x + bit01 inp =
        256 ^ x.length + leVal (shiftU8 x inp).1 := by omega
    rw [hsum, Nat.add_mod_left, Nat.mod_eq_of_lt hvlt]

theorem land_bits : ∀ s < 4, bit01 (Nat.land s 2) = s / 2 ∧ bit01 (Nat.land s 1) = s % 2 := by
  decide

/-- The prefix built by `roll`: `geobits` bits of packed geohash followed by
the四 sex/age bits, as a little-endian value. -/
theorem buildPfx_spec (age sex : Nat) (g : List Char) (geobits : Nat)
    (hage : age < 4) (hsex : sex < 4)
    (h5 : 5 ≤ min (g.length * 5) geobits) :
    ∃ pfx, buildPfx age sex g geobits = some pfx ∧
      pfx.length = roundByte (geobits + 4) ∧ Bytes pfx ∧
      leVal pfx = 16 * (geoVal g % 2 ^ min (g.length * 5) geobits) + 4 * sex + age := by
  set nE := min (g.length * 5) geobits with hnE
  set N := roundByte (geobits + 4) with hN
  have hlen8 : geobits + 4 ≤ 8 * N := pow8_roundByte _
  obtain ⟨p0, hp0, hp0l, hp0B, hp0v⟩ := packGeo_val g geobits (List.replicate N 0)
    (fun b hb => List.eq_of_mem_replicate hb) h5
    (by rw [List.length_replicate]; omega)
  have hgeoP : geoVal g % 2 ^ nE < 2 ^ nE := Nat.mod_lt _ (Nat.pow_pos (by omega))
  have hpow : (16 : Nat) * 2 ^ nE ≤ 256 ^ N := by
    have h1 : (16 : Nat) * 2 ^ nE = 2 ^ (nE + 4) := by
      rw [pow_add]; ring
    rw [h1]
    exact pow2_le_pow256 (by omega)
  rw [List.length_replicate] at hp0l
  obtain ⟨hb2, hb1⟩ := land_bits sex hsex
  obtain ⟨ha2, ha1⟩ := land_bits age hage
  obtain ⟨h1v, h1B, h1l⟩ := shiftU8_val p0 (Nat.land sex 2) hp0B
  obtain ⟨h2v, h2B, h2l⟩ := shiftU8_val (shiftU8 p0 (Nat.land sex 2)).1 (Nat.land sex 1) h1B
  obtain ⟨h3v, h3B, h3l⟩ := shiftU8_val (shiftU8 (shiftU8 p0 (Nat.land sex 2)).1
    (Nat.land sex 1)).1 (Nat.land age 2) h2B
  obtain ⟨h4v, h4B, h4l⟩ := shiftU8_val (shiftU8 (shiftU8 (shiftU8 p0
    (Nat.land sex 2)).1 (Nat.land sex 1)).1 (Nat.land age 2)).1 (Nat.land age 1) h3B
  rw [h1l, hp0l] at h2l h2v
  rw [h2l] at h3l h3v
  rw [h3l] at h4l h4v
  rw [hb2, hp0v, hp0l] at h1v
  rw [Nat.mod_eq_of_lt (show 2 * (geoVal g % 2 ^ nE) + sex / 2 < 256 ^ N by omega)] at h1v
  rw [hb1, h1v] at h2v
  rw [Nat.mod_eq_of_lt (show 2 * (2 * (geoVal g % 2 ^ nE) + sex / 2) + sex % 2 <
    256 ^ N by omega)] at h2v
  rw [ha2, h2v] at h3v
  rw [Nat.mod_eq_of_lt (show 2 * (2 * (2 * (geoVal g % 2 ^ nE) + sex / 2) + sex % 2) +
    age / 2 < 256 ^ N by omega)] at h3v
  rw [ha1, h3v] at h4v
  rw [Nat.mod_eq_of_lt (show 2 * (2 * (2 * (2 * (geoVal g % 2 ^ nE) + sex / 2) +
    sex % 2) + age / 2) + age % 2 < 256 ^ N by omega)] at h4v
  refine ⟨_, ?_, ?_, h4B, ?_⟩
  · simp only [buildPfx]
    rw [← hN, hp0]
    rfl
  · rw [h4l]
  · rw [h4v]
    omega

theorem unshiftA_single (t0 b : Nat) (ht : t0 < 256) (hb : b ≤ 1) :
    unshiftA [t0] b = ([b * 128 + t0 / 2], t0 % 2) := by
  have hb01 : bit01 b = b := by unfold bit01; split <;> omega
  have hlor : Nat.lor (bit01 b * 128) (t0 / 2) = b * 128 + t0 / 2 := by
    rw [hb01]
    exact lor_small b (by omega) (t0 / 2) (by omega)
  simp [unshiftA, hlor]

theorem unshiftA_pop (cpy : List Nat) (hB : Bytes cpy) :
    (unshiftA cpy 0).2 = leVal cpy % 2 ∧ leVal (unshiftA cpy 0).1 = leVal cpy / 2 ∧
      Bytes (unshiftA cpy 0).1 ∧ (unshiftA cpy 0).1.length = cpy.length := by
  obtain ⟨hl, hBr, hc, hv⟩ := unshiftA_spec cpy 0 hB
  have h0 : bit01 0 = 0 := rfl
  rw [h0] at hv
  exact ⟨by omega, by omega, hBr, hl⟩

theorem mod_pow_succ2 (x k : Nat) : x % 2 ^ (k + 1) = x % 2 ^ k + x / 2 ^ k % 2 * 2 ^ k := by
  have hm : x % 2 ^ k < 2 ^ k := Nat.mod_lt _ (Nat.pow_pos (by omega))
  have hkey : x = x / 2 ^ k % 2 * 2 ^ k + x % 2 ^ k + 2 ^ k * 2 * (x / 2 ^ k / 2) := by
    conv_lhs => rw [← Nat.div_add_mod x (2 ^ k), ← Nat.div_add_mod (x / 2 ^ k) 2]
    ring
  rw [pow_succ]
  conv_lhs => rw [hkey]
  rw [Nat.add_mul_mod_self_left, Nat.mod_eq_of_lt (show
    x / 2 ^ k % 2 * 2 ^ k + x % 2 ^ k < 2 ^ k * 2 by
      have h2 : x / 2 ^ k % 2 ≤ 1 := by omega
      have h3 : x / 2 ^ k % 2 * 2 ^ k ≤ 2 ^ k := by
        calc x / 2 ^ k % 2 * 2 ^ k ≤ 1 * 2 ^ k := Nat.mul_le_mul_right _ h2
        _ = 2 ^ k := by ring
      omega)]
  omega

/-- Invariant run of `unpackGeo`'s main loop: starting from a mid-loop state
described by the three-way invariant (initial, at a group boundary, inside a
group), the loop ends in the corresponding state at `n = nBits`. -/
theorem unpackLoop_inv (nBits V : Nat) :
    ∀ (r n t : Nat) (cpy : List Nat) (str : List Char),
      n + r = nBits → Bytes cpy → leVal cpy = V / 2 ^ n → t < 256 →
      ((n = 0 ∧ t = 0 ∧ str = []) ∨
       (0 < n ∧ n % 5 = 0 ∧ t = grp V (n / 5 - 1) * 8 ∧
         str = (List.range (n / 5 - 1)).map (fun i => GHM.getD (grp V i) '0')) ∨
       (n % 5 ≠ 0 ∧ t = V / 2 ^ (5 * (n / 5)) % 2 ^ (n % 5) * 2 ^ (8 - n % 5) ∧
         str = (List.range (n / 5)).map (fun i => GHM.getD (grp V i) '0'))) →
      ∃ strF tF, unpackLoop r n [t] cpy str = (strF, [tF]) ∧ tF < 256 ∧
        ((nBits = 0 ∧ tF = 0 ∧ strF = []) ∨
         (0 < nBits ∧ nBits % 5 = 0 ∧ tF = grp V (nBits / 5 - 1) * 8 ∧
           strF = (List.range (nBits / 5 - 1)).map (fun i => GHM.getD (grp V i) '0')) ∨
         (nBits % 5 ≠ 0 ∧
           tF = V / 2 ^ (5 * (nBits / 5)) % 2 ^ (nBits % 5) * 2 ^ (8 - nBits % 5) ∧
           strF = (List.range (nBits / 5)).map (fun i => GHM.getD (grp V i) '0'))) := by
  intro r
  induction r with
  | zero =>
    intro n t cpy str hn hB hV ht hinv
    have hnn : n = nBits := by omega
    subst hnn
    exact ⟨str, t, rfl, ht, hinv⟩
  | succ r ih =>
    intro n t cpy str hn hB hV ht hinv
    obtain ⟨hpb, hpv, hpB, hpl⟩ := unshiftA_pop cpy hB
    rcases hpop : unshiftA cpy 0 with ⟨cpy2, b⟩
    rw [hpop] at hpb hpv hpB hpl
    simp only at hpb hpv hpB hpl
    have hb1 : b ≤ 1 := by omega
    have hbv : b = V / 2 ^ n % 2 := by rw [hpb, hV]
    have hv2 : leVal cpy2 = V / 2 ^ (n + 1) := by
      rw [hpv, hV, Nat.div_div_eq_div_mul, ← pow_succ]
    rcases hinv with ⟨hn0, ht0, hstr⟩ | ⟨hnpos, hn5, ht0, hstr⟩ | ⟨hn5, ht0, hstr⟩
    · -- initial state: no flush, first bit enters the scratch register
      subst hn0 ht0 hstr
      have hstep : unpackLoop (r + 1) 0 [0] cpy [] =
          unpackLoop r 1 [b * 128] cpy2 [] := by
        simp [unpackLoop, hpop, unshiftA_single 0 b (by omega) hb1]
      rw [hstep]
      refine ih 1 (b * 128) cpy2 [] (by omega) hpB hv2 (by omega)
        (Or.inr (Or.inr ⟨by omega, ?_, by simp⟩))
      rw [hbv]
      norm_num
    · -- group boundary: flush the finished quintet, then consume one bit
      have hj : 1 ≤ n / 5 := by omega
      have hgrp : grp V (n / 5 - 1) < 32 := by
        unfold grp
        exact Nat.mod_lt _ (by omega)
      have hne : n ≠ 0 := by omega
      have hstep : unpackLoop (r + 1) n [t] cpy str =
          unpackLoop r (n + 1) [b * 128] cpy2
            (str ++ [GHM.getD (t / 8) '0']) := by
        simp [unpackLoop, hne, hn5, hpop, unshiftA_single 0 b (by omega) hb1]
      rw [hstep]
      have htdiv : t / 8 = grp V (n / 5 - 1) := by
        rw [ht0]
        omega
      have hstr' : str ++ [GHM.getD (t / 8) '0'] =
          (List.range (n / 5)).map (fun i => GHM.getD (grp V i) '0') := by
        rw [hstr, htdiv]
        rw [show n / 5 = (n / 5 - 1) + 1 from by omega, List.range_succ]
        simp
      rw [hstr']
      refine ih (n + 1) (b * 128) cpy2 _ (by omega) hpB hv2 (by omega)
        (Or.inr (Or.inr ⟨by omega, ?_, ?_⟩))
      · rw [hbv]
        have h1 : (n + 1) / 5 = n / 5 := by omega
        have h2 : (n + 1) % 5 = 1 := by omega
        rw [h1, h2]
        have h3 : 5 * (n / 5) = n := by omega
        rw [h3]
        norm_num
      · rw [show (n + 1) / 5 = n / 5 from by omega]
    · -- inside a group: consume one bit into the scratch register
      have hk : n % 5 < 5 := by omega
      have hstep : unpackLoop (r + 1) n [t] cpy str =
          unpackLoop r (n + 1) [b * 128 + t / 2] cpy2 str := by
        simp [unpackLoop, hn5, hpop, unshiftA_single t b ht hb1]
      rw [hstep]
      have hcases : n % 5 = 4 ∨ n % 5 < 4 := by omega
      have htval : b * 128 + t / 2 =
          V / 2 ^ (5 * (n / 5)) % 2 ^ (n % 5 + 1) * 2 ^ (7 - n % 5) := by
        rw [ht0, hbv]
        have hb' : V / 2 ^ n % 2 = V / 2 ^ (5 * (n / 5)) / 2 ^ (n % 5) % 2 := by
          have hexp : 5 * (n / 5) + n % 5 = n := by omega
          rw [Nat.div_div_eq_div_mul, ← pow_add, hexp]
        rw [hb']
        have hdiv2 : V / 2 ^ (5 * (n / 5)) % 2 ^ (n % 5) * 2 ^ (8 - n % 5) / 2 =
            V / 2 ^ (5 * (n / 5)) % 2 ^ (n % 5) * 2 ^ (7 - n % 5) := by
          rw [show 8 - n % 5 = (7 - n % 5) + 1 from by omega, pow_succ]
          rw [← Nat.mul_assoc, Nat.mul_div_cancel _ (by omega : 0 < 2)]
        rw [hdiv2, mod_pow_succ2]
        have hsplit : (2 : Nat) ^ (7 - n % 5) * 2 ^ (n % 5) = 2 ^ 7 := by
          rw [← pow_add]
          congr 1
          omega
        calc V / 2 ^ (5 * (n / 5)) / 2 ^ (n % 5) % 2 * 128 +
              V / 2 ^ (5 * (n / 5)) % 2 ^ (n % 5) * 2 ^ (7 - n % 5)
            = V / 2 ^ (5 * (n / 5)) / 2 ^ (n % 5) % 2 * (2 ^ (7 - n % 5) * 2 ^ (n % 5)) +
              V / 2 ^ (5 * (n / 5)) % 2 ^ (n % 5) * 2 ^ (7 - n % 5) := by
              rw [hsplit]
              norm_num
        _ = (V / 2 ^ (5 * (n / 5)) % 2 ^ (n % 5) +
              V / 2 ^ (5 * (n / 5)) / 2 ^ (n % 5) % 2 * 2 ^ (n % 5)) * 2 ^ (7 - n % 5) := by
              ring
      rcases hcases with h4 | h4
      · -- the group is complete after this bit
        refine ih (n + 1) (b * 128 + t / 2) cpy2 str (by omega) hpB hv2 (by omega)
          (Or.inr (Or.inl ⟨by omega, by omega, ?_, ?_⟩))
        · rw [htval, h4]
          unfold grp
          have h1 : (n + 1) / 5 - 1 = n / 5 := by omega
          rw [h1]
          norm_num
        · rw [hstr, show (n + 1) / 5 - 1 = n / 5 from by omega]
      · -- still inside the group
        refine ih (n + 1) (b * 128 + t / 2) cpy2 str (by omega) hpB hv2 (by omega)
          (Or.inr (Or.inr ⟨by omega, ?_, ?_⟩))
        · rw [htval]
          have h1 : (n + 1) / 5 = n / 5 := by omega
          have h2 : (n + 1) % 5 = n % 5 + 1 := by omega
          have h3 : 8 - (n + 1) % 5 = 7 - n % 5 := by omega
          rw [h1, h3, h2]
        · rw [hstr, show (n + 1) / 5 = n / 5 from by omega]

theorem bytes_take (buf : List Nat) (m : Nat) (hB : Bytes buf) : Bytes (buf.take m) :=
  fun b hb => hB b (List.take_subset m buf hb)

/-- `unpackGeo` in closed form: strip the group characters of the buffer's
little-endian value. -/
theorem unpackGeo_spec (buf : List Nat) (nBits : Nat) (hB : Bytes buf)
    (hlen : roundByte nBits ≤ buf.length) :
    unpackGeo buf nBits =
      some (stripZeros (unpackChars (leVal (buf.take (roundByte nBits))) nBits)) := by
  obtain ⟨strF, tF, heq, htF, hcase⟩ := unpackLoop_inv nBits
    (leVal (buf.take (roundByte nBits))) nBits 0 0 (buf.take (roundByte nBits)) []
    (by omega) (bytes_take buf _ hB) (by norm_num) (by omega)
    (Or.inl ⟨rfl, rfl, rfl⟩)
  have hout : unpackGeo buf nBits =
      some (stripZeros (strF ++ [GHM.getD (tF / 8) '0'])) := by
    unfold unpackGeo
    rw [if_neg (by omega)]
    simp only [heq, List.headD_cons]
  rw [hout]
  congr 2
  set V := leVal (buf.take (roundByte nBits)) with hV
  rcases hcase with ⟨h0, ht0, hs0⟩ | ⟨hpos, h5, ht0, hs0⟩ | ⟨h5, ht0, hs0⟩
  · subst h0 ht0 hs0
    simp [unpackChars]
  · have hq : 1 ≤ nBits / 5 := by omega
    have hgrp : grp V (nBits / 5 - 1) < 32 := Nat.mod_lt _ (by omega)
    have htdiv : tF / 8 = grp V (nBits / 5 - 1) := by
      rw [ht0]; omega
    rw [hs0, htdiv, unpackChars, if_neg (by omega), if_neg (by omega)]
    rw [show nBits / 5 = (nBits / 5 - 1) + 1 from by omega, List.range_succ]
    simp
  · have htdiv : tF / 8 =
        V / 2 ^ (5 * (nBits / 5)) % 2 ^ (nBits % 5) * 2 ^ (5 - nBits % 5) := by
      rw [ht0, show (8 : Nat) - nBits % 5 = (5 - nBits % 5) + 3 from by omega, pow_add]
      rw [show (2 : Nat) ^ 3 = 8 from rfl, ← Nat.mul_assoc]
      exact Nat.mul_div_cancel _ (by omega)
    rw [hs0, htdiv, unpackChars, if_neg (by omega), if_pos h5]

theorem bytes_getD {l : List Nat} (hB : Bytes l) (i : Nat) : l.getD i 0 < 256 := by
  cases h : l[i]? with
  | none => simp [List.getD, h]
  | some v =>
    have hv := hB v (List.getElem?_mem h)
    simp [List.getD, h, hv]

theorem defensiveCopy_bytes (key : List Nat) (geobits : Nat) (hB : Bytes key) :
    Bytes (defensiveCopy key geobits) := by
  intro b hb
  unfold defensiveCopy at hb
  obtain ⟨i, _, rfl⟩ := List.mem_map.mp hb
  exact bytes_getD hB i

theorem roundByte_mono {m n : Nat} (h : m ≤ n) : roundByte m ≤ roundByte n := by
  unfold roundByte
  split <;> split <;> omega

theorem lor_bits : ∀ a < 2, ∀ b < 2, Nat.lor a (b * 2) = a + b * 2 := by decide

theorem div_mod_window (z a b m : Nat) (h : a + b ≤ m) :
    z % 2 ^ m / 2 ^ a % 2 ^ b = z / 2 ^ a % 2 ^ b := by
  have hm : (2 : Nat) ^ m = 2 ^ a * 2 ^ (m - a) := by
    rw [← pow_add]; congr 1; omega
  rw [hm, Nat.mod_mul_right_div_self]
  exact Nat.mod_mod_of_dvd _ (pow_dvd_pow 2 (by omega))

theorem unpackChars_mod (z m nBits : Nat) (h : nBits ≤ m) :
    unpackChars (z % 2 ^ m) nBits = unpackChars z nBits := by
  unfold unpackChars
  split
  · rfl
  · rename_i hnz
    congr 1
    · apply List.map_congr_left
      intro j hj
      rw [List.mem_range] at hj
      unfold grp
      rw [show (32 : Nat) = 2 ^ 5 from rfl,
        div_mod_window z (5 * j) 5 m (by omega)]
    · split
      · rw [div_mod_window z (5 * (nBits / 5)) (nBits % 5) m (by omega)]
      · rfl

/-- `decodeASL` in closed form: age from the two lowest bits, sex from the
next two, location from the `geobits` bits above them. -/
theorem decodeASL_eq (key : List Nat) (geobits : Nat) (hB : Bytes key)
    (hg : 1 ≤ geobits) :
    decodeASL key geobits = some (leVal (defensiveCopy key geobits) % 4,
      leVal (defensiveCopy key geobits) / 4 % 4,
      stripZeros (unpackChars (leVal (defensiveCopy key geobits) / 16) geobits)) := by
  set W := leVal (defensiveCopy key geobits) with hW
  have hcB : Bytes (defensiveCopy key geobits) := defensiveCopy_bytes key geobits hB
  have hclen : (defensiveCopy key geobits).length = roundByte (4 + geobits) := by
    unfold defensiveCopy
    simp
  obtain ⟨hb1, hv1, hB1, hl1⟩ := unshiftA_pop (defensiveCopy key geobits) hcB
  rcases h1 : unshiftA (defensiveCopy key geobits) 0 with ⟨c1, a0⟩
  rw [h1] at hb1 hv1 hB1 hl1
  simp only at hb1 hv1 hB1 hl1
  obtain ⟨hb2, hv2, hB2, hl2⟩ := unshiftA_pop c1 hB1
  rcases h2 : unshiftA c1 0 with ⟨c2, a1⟩
  rw [h2] at hb2 hv2 hB2 hl2
  simp only at hb2 hv2 hB2 hl2
  obtain ⟨hb3, hv3, hB3, hl3⟩ := unshiftA_pop c2 hB2
  rcases h3 : unshiftA c2 0 with ⟨c3, s0⟩
  rw [h3] at hb3 hv3 hB3 hl3
  simp only at hb3 hv3 hB3 hl3
  obtain ⟨hb4, hv4, hB4, hl4⟩ := unshiftA_pop c3 hB3
  rcases h4 : unshiftA c3 0 with ⟨c4, s1⟩
  rw [h4] at hb4 hv4 hB4 hl4
  simp only at hb4 hv4 hB4 hl4
  have hc4v : leVal c4 = W / 16 := by
    rw [hv4, hv3, hv2, hv1]
    omega
  have hc4l : c4.length = roundByte (4 + geobits) := by
    rw [hl4, hl3, hl2, hl1, hclen]
  have hunp : unpackGeo c4 geobits =
      some (stripZeros (unpackChars (W / 16) geobits)) := by
    rw [unpackGeo_spec c4 geobits hB4
      (by rw [hc4l]; exact roundByte_mono (by omega))]
    congr 2
    rw [leVal_take c4 hB4 (roundByte geobits), hc4v]
    have h256 : (256 : Nat) ^ roundByte geobits = 2 ^ (8 * roundByte geobits) := by
      rw [show (256 : Nat) = 2 ^ 8 from rfl, ← pow_mul]
    rw [h256]
    exact unpackChars_mod (W / 16) _ geobits (pow8_roundByte geobits)
  have hage : Nat.lor a0 (a1 * 2) = W % 4 := by
    rw [lor_bits a0 (by omega) a1 (by omega), hb1, hb2, hv1]
    omega
  have hsex : Nat.lor s0 (s1 * 2) = W / 4 % 4 := by
    rw [lor_bits s0 (by omega) s1 (by omega), hb3, hb4, hv3, hv2, hv1]
    omega
  simp only [decodeASL, h1, h2, h3, h4, hunp, hage, hsex, Option.map_some']

/-! ## Digit extraction and trailing-zero stripping -/

theorem geoVal_div32 (c : Char) (t : List Char) : geoVal (c :: t) / 32 = geoVal t := by
  have h := charVal_lt c
  simp only [geoVal]
  omega

theorem geoVal_mod32 (c : Char) (t : List Char) : geoVal (c :: t) % 32 = charVal c := by
  have h := charVal_lt c
  simp only [geoVal]
  omega

theorem geoVal_div_pow : ∀ (j : Nat) (h : List Char), geoVal h / 32 ^ j = geoVal (h.drop j) := by
  intro j
  induction j with
  | zero => intro h; simp
  | succ j ih =>
    intro h
    cases h with
    | nil => simp [geoVal]
    | cons c t =>
      rw [pow_succ', ← Nat.div_div_eq_div_mul, geoVal_div32, ih t]
      rfl

theorem headD_drop (d : Char) : ∀ (h : List Char) (j : Nat),
    (h.drop j).headD d = h.getD j d := by
  intro h
  induction h with
  | nil => intro j; simp
  | cons c t ih =>
    intro j
    cases j with
    | zero => simp
    | succ j => simpa using ih j

theorem geoVal_digit (h : List Char) (j : Nat) (hj : j < h.length) :
    grp (geoVal h) j = charVal (h.getD j ' ') := by
  unfold grp
  rw [← pow32_pow2, geoVal_div_pow j h]
  have hcons : h.drop j = h.getD j ' ' :: (h.drop (j + 1)) := by
    have h1 := headD_drop ' ' h j
    cases hd : h.drop j with
    | nil =>
      exfalso
      have := List.length_drop j h ▸ congrArg List.length hd
      simp at this
      omega
    | cons a s =>
      rw [hd] at h1
      simp at h1
      rw [h1]
      congr 1
      · simp [List.getD]
      · have h2 := congrArg List.tail hd
        rw [List.tail_drop] at h2
        exact h2.symm
  rw [hcons, geoVal_mod32]

theorem GHM_charVal (c : Char) (hc : c ∈ GHM) : GHM.getD (charVal c) '0' = c := by
  unfold charVal GHU
  rw [if_pos hc]
  simp only [Option.getD_some]
  have hlt : GHM.indexOf c < GHM.length := List.indexOf_lt_length.mpr hc
  rw [List.getD_eq_getElem GHM '0' hlt]
  exact List.getElem_indexOf hlt

theorem map_getD_self (h : List Char) (d : Char) :
    (List.range h.length).map (fun j => h.getD j d) = h := by
  apply List.ext_getElem
  · simp
  · intro i h1 h2
    simp only [List.getElem_map, List.getElem_range]
    rw [List.getD_eq_getElem h d (by simpa using h2)]

theorem stripZeros_append_zero (l : List Char) :
    stripZeros (l ++ ['0']) = stripZeros l := by
  unfold stripZeros
  rw [List.reverse_append]
  rfl

theorem stripZeros_append_ne (l : List Char) (c : Char) (hc : ¬(c = '0')) :
    stripZeros (l ++ [c]) = l ++ [c] := by
  unfold stripZeros
  rw [List.reverse_append]
  simp [List.dropWhile_cons, hc]

theorem stripZeros_decomp (l : List Char) :
    ∃ k, l = stripZeros l ++ List.replicate k '0' := by
  induction l using List.reverseRecOn with
  | nil => exact ⟨0, rfl⟩
  | append_singleton l c ih =>
    by_cases hc : c = '0'
    · subst hc
      obtain ⟨k, hk⟩ := ih
      refine ⟨k + 1, ?_⟩
      rw [stripZeros_append_zero]
      conv_lhs => rw [hk]
      rw [List.append_assoc]
      congr 1
      simp [List.replicate_succ']
    · exact ⟨0, by rw [stripZeros_append_ne l c hc]; simp⟩

theorem stripZeros_spec (l : List Char) :
    ∃ m, m ≤ l.length ∧ stripZeros l = l.take m ∧
      (∀ i, m ≤ i → i < l.length → l.getD i ' ' = '0') ∧
      (0 < m → ¬(l.getD (m - 1) ' ' = '0')) := by
  induction l using List.reverseRecOn with
  | nil => exact ⟨0, by simp [stripZeros]⟩
  | append_singleton l c ih =>
    by_cases hc : c = '0'
    · subst hc
      obtain ⟨m, hm, hs, hzero, hbound⟩ := ih
      refine ⟨m, by simp; omega, ?_, ?_, ?_⟩
      · rw [stripZeros_append_zero, hs, List.take_append_eq_append_take,
          show m - l.length = 0 from by omega]
        simp
      · intro i h1 h2
        simp only [List.length_append, List.length_singleton] at h2
        by_cases hi : i < l.length
        · rw [List.getD_append _ _ _ _ hi]
          exact hzero i h1 hi
        · have : i = l.length := by omega
          subst this
          rw [List.getD_append_right _ _ _ _ (by omega)]
          simp
      · intro h0
        rw [List.getD_append _ _ _ _ (by omega)]
        exact hbound h0
    · refine ⟨l.length + 1, by simp, ?_, ?_, ?_⟩
      · rw [stripZeros_append_ne l c hc]
        rw [List.take_append_eq_append_take]
        simp
      · intro i h1 h2
        simp only [List.length_append, List.length_singleton] at h2
        omega
      · intro _
        simp only [Nat.add_sub_cancel]
        rw [List.getD_append_right _ _ _ _ (by omega)]
        simpa using hc

/-! ## C2: the GeoCodec round-trip -/

theorem unpackChars_geoVal (h : List Char) (hv : ValidGeo h) (hL : 1 ≤ h.length) :
    unpackChars (geoVal h) (5 * h.length) = h := by
  unfold unpackChars
  rw [if_neg (by omega)]
  rw [if_neg (by simp [Nat.mul_mod_right])]
  rw [List.append_nil]
  rw [show 5 * h.length / 5 = h.length from by omega]
  calc (List.range h.length).map (fun j => GHM.getD (grp (geoVal h) j) '0')
      = (List.range h.length).map (fun j => h.getD j ' ') := by
        apply List.map_congr_left
        intro j hj
        rw [List.mem_range] at hj
        rw [geoVal_digit h j hj]
        apply GHM_charVal
        apply hv
        rw [← headD_drop ' ' h j]
        have hcons : h.drop j ≠ [] := by
          intro hcon
          have := congrArg List.length hcon
          simp at this
          omega
        cases hdrop : h.drop j with
        | nil => exact absurd hdrop hcons
        | cons a s =>
          simp only [List.headD_cons]
          have : a ∈ h.drop j := by rw [hdrop]; exact List.mem_cons_self a s
          exact List.mem_of_mem_drop this
  _ = h := map_getD_self h ' '

/-- C2 counterexample: the empty geohash is alphabet-valid, but `packGeo`
rejects precision `0 < 5`, so the round-trip equation fails at `h = []`. -/
theorem geoCodec_roundtrip_fails_empty : ¬ C2Claim [] := by
  intro hclaim
  obtain ⟨b, g', k, hpack, _, _⟩ := hclaim (fun c hc => absurd hc (List.not_mem_nil c))
  simp [packGeo] at hpack

/-- C2 (amended): for every nonempty alphabet-valid geohash `h`,
`unpackGeo(packGeo(h, 5L), 5L)` returns `h` with some trailing `'0'`
characters removed. -/
theorem geoCodec_roundtrip (h : List Char) (hv : ValidGeo h) (hL : 1 ≤ h.length) :
    ∃ b g' k, packGeo h (5 * h.length) none = some b ∧
      unpackGeo b (5 * h.length) = some g' ∧ h = g' ++ List.replicate k '0' := by
  have hmin : min (h.length * 5) (5 * h.length) = 5 * h.length := by
    rw [Nat.mul_comm]
    exact min_self _
  obtain ⟨b, hpack, hlen, hB, hval⟩ := packGeo_val_none h (5 * h.length) (by omega)
  rw [hmin] at hlen hval
  have hgv : geoVal h % 2 ^ (5 * h.length) = geoVal h := by
    apply Nat.mod_eq_of_lt
    calc geoVal h < 32 ^ h.length := geoVal_lt h
    _ = 2 ^ (5 * h.length) := by rw [pow32_pow2, Nat.mul_comm]
  rw [hgv] at hval
  obtain ⟨k, hk⟩ := stripZeros_decomp h
  refine ⟨b, stripZeros h, k, hpack, ?_, hk⟩
  rw [unpackGeo_spec b (5 * h.length) hB (by omega)]
  congr 2
  rw [show b.take (roundByte (5 * h.length)) = b from by rw [← hlen]; exact List.take_length b]
  rw [hval]
  exact unpackChars_geoVal h hv hL

/-- C2 witness at `h = "v10"`. -/
theorem geoCodec_roundtrip_witness :
    ValidGeo ['v', '1', '0'] ∧ 1 ≤ (['v', '1', '0'] : List Char).length ∧
      ∃ b g' k, packGeo ['v', '1', '0'] (5 * (['v', '1', '0'] : List Char).length) none = some b ∧
        unpackGeo b (5 * (['v', '1', '0'] : List Char).length) = some g' ∧
        ['v', '1', '0'] = g' ++ List.replicate k '0' :=
  ⟨by decide, by decide, geoCodec_roundtrip ['v', '1', '0'] (by decide) (by decide)⟩

/-! ## C5: extraction order of the metadata bits -/

theorem unshiftA_snd_le (x : List Nat) (inp : Nat) : (unshiftA x inp).2 ≤ 1 := by
  cases x with
  | nil => exact bit01_le inp
  | cons b t =>
    rcases h : unshiftA t inp with ⟨t2, c⟩
    simp [unshiftA, h]
    omega

/-- C5 counterexample: on the key whose prefix encodes `age = 1, sex = 0` at
`geobits = 5`, `decodeASL` disagrees with a decoder that pops the bits in the
claimed append order (sex-high, sex-low, age-high, age-low). -/
theorem decodeASL_claim_order_fails :
    decodeASL ([177, 1] ++ List.replicate 30 0) 5 ≠
      decodeASLClaimOrder ([177, 1] ++ List.replicate 30 0) 5 := by
  decide

/-- C5 (amended): `decodeASL` pops the four metadata bits in reverse append
order — age-low, age-high, sex-low, sex-high — because `unshift` returns the
most recently appended bit; it then unpacks the location.  It agrees with the
reverse-order reference decoder on every input. -/
theorem decodeASL_rev_order (key : List Nat) (geobits : Nat) :
    decodeASL key geobits = decodeASLRevOrder key geobits := by
  unfold decodeASL decodeASLRevOrder
  have ha0 := unshiftA_snd_le (defensiveCopy key geobits) 0
  rcases h1 : unshiftA (defensiveCopy key geobits) 0 with ⟨c1, a0⟩
  rw [h1] at ha0
  have ha1 := unshiftA_snd_le c1 0
  rcases h2 : unshiftA c1 0 with ⟨c2, a1⟩
  rw [h2] at ha1
  have hs0 := unshiftA_snd_le c2 0
  rcases h3 : unshiftA c2 0 with ⟨c3, s0⟩
  rw [h3] at hs0
  have hs1 := unshiftA_snd_le c3 0
  rcases h4 : unshiftA c3 0 with ⟨c4, s1⟩
  rw [h4] at hs1
  simp only at ha0 ha1 hs0 hs1
  dsimp only
  rw [h2, h3, h4]
  dsimp only
  rw [lor_bits a0 (by omega) a1 (by omega), lor_bits s0 (by omega) s1 (by omega)]

/-! ## C8: the bundled shipped `decodeASL` mutates its input -/

/-- C8: the bundled variant (`src/docs/demo.build.js`) runs the four
`unshift`s directly on the caller's array; at a concrete 32-byte key it
returns the decoded ASL but leaves the caller's array shifted right by four
bits, unlike `src/index.js`, whose comment documents the need for a copy. -/
theorem decodeASLBundled_mutates :
    decodeASLBundled ([185, 1] ++ List.replicate 30 0) 15 =
      (some (1, 2, ['v']), [27] ++ List.replicate 31 0) ∧
      ([27] ++ List.replicate 31 0 : List Nat) ≠ [185, 1] ++ List.replicate 30 0 := by
  constructor
  · decide
  · decide

/-! ## C10: `xorDistance` reads only the first four bytes -/

/-- C10: `xorDistance` depends only on the zero-extended first four bytes of
each argument. -/
theorem xorDistance_first4 (a b a2 b2 : List Nat)
    (ha : ∀ i < 4, a.getD i 0 = a2.getD i 0)
    (hb : ∀ i < 4, b.getD i 0 = b2.getD i 0) :
    xorDistance a b = xorDistance a2 b2 := by
  have h4a : first4 a = first4 a2 := by
    unfold first4
    apply List.map_congr_left
    intro i hi
    exact ha i (List.mem_range.mp hi)
  have h4b : first4 b = first4 b2 := by
    unfold first4
    apply List.map_congr_left
    intro i hi
    exact hb i (List.mem_range.mp hi)
  unfold xorDistance
  rw [h4a, h4b]

/-- C10 witness: bytes at index 4 and beyond do not influence the result. -/
theorem xorDistance_first4_witness :
    (∀ i < 4, ([1, 2, 3, 4, 99] : List Nat).getD i 0 = ([1, 2, 3, 4] : List Nat).getD i 0) ∧
      (∀ i < 4, ([7] : List Nat).getD i 0 = ([7, 0, 0, 0, 200] : List Nat).getD i 0) ∧
      xorDistance [1, 2, 3, 4, 99] [7] = xorDistance [1, 2, 3, 4] [7, 0, 0, 0, 200] :=
  ⟨by decide, by decide,
    xorDistance_first4 [1, 2, 3, 4, 99] [7] [1, 2, 3, 4] [7, 0, 0, 0, 200]
      (by decide) (by decide)⟩

/-! ## C6 and C7: the grinding loop -/

theorem matchLoop_false (pk pfx : List Nat) (mask nBytes : Nat) :
    ∀ r n, matchLoop pk pfx mask nBytes r n false = false := by
  intro r n
  cases r with
  | zero => rfl
  | succ r => rfl

theorem matchLoop_iff (pk pfx : List Nat) (mask : Nat) (nBytes : Nat) :
    ∀ r n, n + r = nBytes →
      (matchLoop pk pfx mask nBytes r n true = true ↔
        ((∀ i, n ≤ i → i + 1 < nBytes → pk.getD i 0 = pfx.getD i 0) ∧
          (n < nBytes → Nat.land (pk.getD (nBytes - 1) 0) mask =
            Nat.land (pfx.getD (nBytes - 1) 0) mask))) := by
  intro r
  induction r with
  | zero =>
    intro n hn
    constructor
    · intro _
      exact ⟨fun i hi hi2 => by omega, fun hlt => by omega⟩
    · intro _
      rfl
  | succ r ih =>
    intro n hn
    by_cases hlast : n + 1 = nBytes
    · by_cases heq : Nat.land (pk.getD n 0) mask = Nat.land (pfx.getD n 0) mask
      · have heq2 : Nat.land (pk[n]?.getD 0) mask = Nat.land (pfx[n]?.getD 0) mask := by
          simpa [List.getD] using heq
        have hstep : matchLoop pk pfx mask nBytes (r + 1) n true =
            matchLoop pk pfx mask nBytes r (n + 1) true := by
          simp [matchLoop, hlast, heq2]
        rw [hstep, ih (n + 1) (by omega)]
        constructor
        · rintro ⟨A, B⟩
          refine ⟨fun i hi hi2 => A i (by omega) hi2, fun _ => ?_⟩
          rw [show nBytes - 1 = n from by omega]
          exact heq
        · rintro ⟨A, B⟩
          exact ⟨fun i hi hi2 => A i (by omega) hi2, fun h => by omega⟩
      · have heq2 : ¬ Nat.land (pk[n]?.getD 0) mask = Nat.land (pfx[n]?.getD 0) mask := by
          simpa [List.getD] using heq
        have hstep : matchLoop pk pfx mask nBytes (r + 1) n true =
            matchLoop pk pfx mask nBytes r (n + 1) false := by
          simp [matchLoop, hlast, heq2]
        rw [hstep, matchLoop_false]
        constructor
        · intro h
          cases h
        · rintro ⟨A, B⟩
          exfalso
          apply heq
          have := B (by omega)
          rwa [show nBytes - 1 = n from by omega] at this
    · have hlt : n < nBytes := by omega
      by_cases heq : pk.getD n 0 = pfx.getD n 0
      · have heq2 : pk[n]?.getD 0 = pfx[n]?.getD 0 := by
          simpa [List.getD] using heq
        have hstep : matchLoop pk pfx mask nBytes (r + 1) n true =
            matchLoop pk pfx mask nBytes r (n + 1) true := by
          simp [matchLoop, hlast, heq2]
        rw [hstep, ih (n + 1) (by omega)]
        constructor
        · rintro ⟨A, B⟩
          refine ⟨fun i hi hi2 => ?_, fun _ => B (by omega)⟩
          rcases Nat.eq_or_lt_of_le hi with rfl | hi'
          · exact heq
          · exact A i (by omega) hi2
        · rintro ⟨A, B⟩
          exact ⟨fun i hi hi2 => A i (by omega) hi2, fun _ => B (by omega)⟩
      · have heq2 : ¬ pk[n]?.getD 0 = pfx[n]?.getD 0 := by
          simpa [List.getD] using heq
        have hstep : matchLoop pk pfx mask nBytes (r + 1) n true =
            matchLoop pk pfx mask nBytes r (n + 1) false := by
          simp [matchLoop, hlast, heq2]
        rw [hstep, matchLoop_false]
        constructor
        · intro h
          cases h
        · rintro ⟨A, B⟩
          exact absurd (A n (by omega) (by omega)) heq

theorem matchLoop_main (pk pfx : List Nat) (mask : Nat) (h1 : 1 ≤ pfx.length) :
    matchLoop pk pfx mask pfx.length pfx.length 0 true = true ↔ ByteCond pk pfx mask := by
  rw [matchLoop_iff pk pfx mask pfx.length pfx.length 0 (by omega)]
  unfold ByteCond
  constructor
  · rintro ⟨A, B⟩
    exact ⟨fun n hn => A n (by omega) (by omega), B (by omega)⟩
  · rintro ⟨A, B⟩
    exact ⟨fun i _ hi2 => A i (by omega), fun _ => B⟩

theorem rollLoop_none (pfx : List Nat) (mask nBytes : Nat)
    (trials : Nat → List Nat × List Nat) (hn : nBytes = pfx.length)
    (h1 : 1 ≤ pfx.length) :
    ∀ r i0, (∀ i, i0 ≤ i → i < i0 + r → ¬ ByteCond (trials i).2 pfx mask) →
      rollLoop pfx mask nBytes trials r i0 = none := by
  intro r
  induction r with
  | zero => intro i0 _; rfl
  | succ r ih =>
    intro i0 hno
    have hcond : matchLoop (trials i0).2 pfx mask nBytes nBytes 0 true = false := by
      subst hn
      rcases h : matchLoop (trials i0).2 pfx mask pfx.length pfx.length 0 true with _ | _
      · rfl
      · exact absurd ((matchLoop_main _ pfx mask h1).mp h)
          (hno i0 (by omega) (by omega))
    unfold rollLoop
    rw [hcond]
    simp only [Bool.false_eq_true, if_false]
    exact ih (i0 + 1) (fun i hi hi2 => hno i (by omega) (by omega))

theorem rollLoop_first (pfx : List Nat) (mask nBytes : Nat)
    (trials : Nat → List Nat × List Nat) (hn : nBytes = pfx.length)
    (h1 : 1 ≤ pfx.length) :
    ∀ r i0 j, i0 ≤ j → j < i0 + r →
      (∀ i, i0 ≤ i → i < j → ¬ ByteCond (trials i).2 pfx mask) →
      ByteCond (trials j).2 pfx mask →
      rollLoop pfx mask nBytes trials r i0 = some (bytesToHex (trials j).1) := by
  intro r
  induction r with
  | zero => intro i0 j h2 h3 _ _; omega
  | succ r ih =>
    intro i0 j h2 h3 hbefore hj
    by_cases hij : i0 = j
    · subst hij
      have hcond : matchLoop (trials i0).2 pfx mask nBytes nBytes 0 true = true := by
        subst hn
        exact (matchLoop_main _ pfx mask h1).mpr hj
      unfold rollLoop
      rw [hcond]
      simp
    · have hcond : matchLoop (trials i0).2 pfx mask nBytes nBytes 0 true = false := by
        subst hn
        rcases h : matchLoop (trials i0).2 pfx mask pfx.length pfx.length 0 true with _ | _
        · rfl
        · exact absurd ((matchLoop_main _ pfx mask h1).mp h)
            (hbefore i0 (by omega) (by omega))
      unfold rollLoop
      rw [hcond]
      simp only [Bool.false_eq_true, if_false]
      exact ih (i0 + 1) j (by omega) (by omega)
        (fun i hi hi2 => hbefore i (by omega) hi2) hj

theorem buildPfx_length (age sex : Nat) (g : List Char) (geobits : Nat)
    (pfx : List Nat) (h : buildPfx age sex g geobits = some pfx) :
    pfx.length = roundByte (geobits + 4) := by
  simp only [buildPfx, Option.map_eq_some'] at h
  obtain ⟨p0, hp0, hrest⟩ := h
  have hp0B : Bytes p0 ∧ p0.length = (List.replicate (roundByte (geobits + 4)) 0).length := by
    simp only [packGeo, Option.ite_none_left_eq_some, Option.some.injEq] at hp0
    obtain ⟨_, hp0⟩ := hp0
    rw [← hp0]
    obtain ⟨hB, hl⟩ := packGeoLoop_len_bytes g _ _ _ 0 _ (bytes_replicate _)
    exact ⟨hB, hl⟩
  obtain ⟨hp0B, hp0l⟩ := hp0B
  rw [List.length_replicate] at hp0l
  obtain ⟨_, h1B, h1l⟩ := shiftU8_val p0 (Nat.land sex 2) hp0B
  obtain ⟨_, h2B, h2l⟩ := shiftU8_val _ (Nat.land sex 1) h1B
  obtain ⟨_, h3B, h3l⟩ := shiftU8_val _ (Nat.land age 2) h2B
  obtain ⟨_, h4B, h4l⟩ := shiftU8_val _ (Nat.land age 1) h3B
  rw [← hrest, h4l, h3l, h2l, h1l, hp0l]

/-- C6: on each trial the candidate matches iff every byte before the last
equals the prefix byte and the last byte agrees under the mask
(`mask = (1 << (nbits mod 8)) - 1` when `nbits mod 8 ≠ 0`, else `0xFF`); on
the first matching trial `roll` immediately returns that trial's private key
hex-encoded. -/
theorem roll_first_match (age sex : Nat) (g : List Char) (geobits maxTries : Nat)
    (trials : Nat → List Nat × List Nat) (pfx : List Nat) (j : Nat)
    (hpfx : buildPfx age sex g geobits = some pfx)
    (hj : j < maxTries)
    (hbefore : ∀ i, i < j → ¬ ByteCond (trials i).2 pfx (rollMask (geobits + 4)))
    (hmatch : ByteCond (trials j).2 pfx (rollMask (geobits + 4))) :
    roll age sex g geobits maxTries trials = some (some (bytesToHex (trials j).1)) := by
  have hlen : pfx.length = roundByte (geobits + 4) := buildPfx_length _ _ _ _ _ hpfx
  have h1 : 1 ≤ pfx.length := by
    rw [hlen]
    exact roundByte_pos (by omega)
  unfold roll
  rw [hpfx]
  simp only [Option.map_some', Option.some.injEq]
  exact rollLoop_first pfx (rollMask (geobits + 4)) pfx.length trials rfl h1
    maxTries 0 j (by omega) (by omega) (fun i _ hi2 => hbefore i hi2) hmatch

/-- C6 witness: at `age = 3, sex = 0, g = "v", geobits = 5`, the prefix is
`[0xB3, 0x01]` with mask `1`; trial 0 misses, trial 1 hits and its key is
returned hex-encoded. -/
theorem roll_first_match_witness :
    buildPfx 3 0 ['v'] 5 = some [179, 1] ∧
      (1 : Nat) < 2 ∧
      (∀ i, i < 1 → ¬ ByteCond ((fun i => if i = 0 then ([1], List.replicate 32 0)
        else ([2, 171], [179, 3] ++ List.replicate 30 0)) i).2 [179, 1] (rollMask (5 + 4))) ∧
      ByteCond ((fun i : Nat => if i = 0 then ([1], List.replicate 32 0)
        else ([2, 171], [179, 3] ++ List.replicate 30 0)) 1).2 [179, 1] (rollMask (5 + 4)) ∧
      roll 3 0 ['v'] 5 2 (fun i => if i = 0 then ([1], List.replicate 32 0)
        else ([2, 171], [179, 3] ++ List.replicate 30 0)) =
        some (some (bytesToHex [2, 171])) :=
  ⟨by decide, by decide, by decide, by decide,
    roll_first_match 3 0 ['v'] 5 2 _ [179, 1] 1 (by decide) (by decide)
      (by decide) (by decide)⟩

/-- C7: if the prefix is built successfully and no trial among `maxTries`
matches, `roll` returns the absent result (inner `none`), not an exception
(outer `some`). -/
theorem roll_exhausted (age sex : Nat) (g : List Char) (geobits maxTries : Nat)
    (trials : Nat → List Nat × List Nat) (pfx : List Nat)
    (hpfx : buildPfx age sex g geobits = some pfx)
    (hnone : ∀ i, i < maxTries → ¬ ByteCond (trials i).2 pfx (rollMask (geobits + 4))) :
    roll age sex g geobits maxTries trials = some none := by
  have hlen : pfx.length = roundByte (geobits + 4) := buildPfx_length _ _ _ _ _ hpfx
  have h1 : 1 ≤ pfx.length := by
    rw [hlen]
    exact roundByte_pos (by omega)
  unfold roll
  rw [hpfx]
  simp only [Option.map_some', Option.some.injEq]
  exact rollLoop_none pfx (rollMask (geobits + 4)) pfx.length trials rfl h1
    maxTries 0 (fun i _ hi2 => hnone i (by omega))

/-- C7 witness: two non-matching trials exhaust the search and give `some none`. -/
theorem roll_exhausted_witness :
    buildPfx 3 0 ['v'] 5 = some [179, 1] ∧
      (∀ i, i < 2 → ¬ ByteCond ((fun _ : Nat => ([1], List.replicate 32 0)) i).2
        [179, 1] (rollMask (5 + 4))) ∧
      roll 3 0 ['v'] 5 2 (fun _ => ([1], List.replicate 32 0)) = some none :=
  ⟨by decide, by decide,
    roll_exhausted 3 0 ['v'] 5 2 _ [179, 1] (by decide) (by decide)⟩

/-! ## C1: the ASL round-trip -/

theorem charVal_GHM : ∀ v < 32, charVal (GHM.getD v '0') = v := by decide

theorem GHM_getD_ne_zero : ∀ v < 32, v ≠ 0 → ¬(GHM.getD v '0' = '0') := by decide

theorem grp_lt (z j : Nat) : grp z j < 32 := Nat.mod_lt _ (by omega)

theorem grp_succ (z j : Nat) : grp z (j + 1) = grp (z / 32) j := by
  unfold grp
  rw [show (32 : Nat) = 2 ^ 5 from rfl, Nat.div_div_eq_div_mul, ← pow_add,
    show 5 * (j + 1) = 5 + 5 * j from by ring]

theorem grp_shift (z m j : Nat) : grp (z / 32 ^ m) j = grp z (m + j) := by
  unfold grp
  rw [pow32_pow2, Nat.div_div_eq_div_mul, ← pow_add,
    show 5 * (m + j) = 5 * m + 5 * j from by ring]

theorem grp_all_zero : ∀ (k w : Nat), w < 32 ^ k → (∀ j, j < k → grp w j = 0) → w = 0 := by
  intro k
  induction k with
  | zero => intro w hw _; omega
  | succ k ih =>
    intro w hw hz
    have h0 : w % 32 = 0 := by
      have := hz 0 (by omega)
      unfold grp at this
      simpa using this
    have hd : w / 32 = 0 := by
      apply ih
      · have : w / 32 < 32 ^ (k + 1) / 32 + 1 := by
          have := Nat.div_le_div_right (c := 32) (Nat.le_of_lt hw)
          omega
        rw [pow_succ, Nat.mul_div_cancel _ (by omega : (0:Nat) < 32)] at this
        omega
      · intro j hj
        rw [← grp_succ]
        exact hz (j + 1) (by omega)
    omega

theorem grp_zero_bound (m q z : Nat) (hz : z < 32 ^ q)
    (h0 : ∀ j, m ≤ j → j < q → grp z j = 0) : z < 32 ^ m := by
  by_cases hmq : q ≤ m
  · calc z < 32 ^ q := hz
    _ ≤ 32 ^ m := Nat.pow_le_pow_right (by omega) hmq
  · have hd : z / 32 ^ m = 0 := by
      apply grp_all_zero (q - m)
      · rw [Nat.div_lt_iff_lt_mul (Nat.pow_pos (by omega)), ← pow_add]
        calc z < 32 ^ q := hz
        _ = 32 ^ (q - m + m) := by congr 1; omega
      · intro j hj
        rw [grp_shift]
        exact h0 (m + j) (by omega) (by omega)
    have hdm := Nat.div_add_mod z (32 ^ m)
    rw [hd, Nat.mul_zero, Nat.zero_add] at hdm
    have hmod : z % 32 ^ m < 32 ^ m := Nat.mod_lt _ (Nat.pow_pos (by omega))
    omega

theorem geoVal_map_grp : ∀ (m z : Nat), z < 32 ^ m →
    geoVal ((List.range m).map (fun j => GHM.getD (grp z j) '0')) = z := by
  intro m
  induction m with
  | zero => intro z hz; simp [geoVal]; omega
  | succ m ih =>
    intro z hz
    rw [List.range_succ_eq_map]
    simp only [List.map_cons, List.map_map]
    rw [show ((fun j => GHM.getD (grp z j) '0') ∘ Nat.succ) =
        (fun j => GHM.getD (grp (z / 32) j) '0') from by
      funext j
      simp only [Function.comp]
      rw [show Nat.succ j = j + 1 from rfl, grp_succ]]
    simp only [geoVal]
    rw [ih (z / 32) (by
      rw [Nat.div_lt_iff_lt_mul (by omega : (0:Nat) < 32), ← pow_succ]
      exact hz)]
    rw [charVal_GHM (grp z 0) (grp_lt z 0)]
    unfold grp
    simp only [Nat.mul_zero, pow_zero, Nat.div_one]
    omega

theorem getD_map_range (f : Nat → Char) (q i : Nat) (hi : i < q) (d : Char) :
    ((List.range q).map f).getD i d = f i := by
  rw [List.getD_eq_getElem _ d (by simpa using hi)]
  simp

/-- Repacking the stripped unpacked characters of a nonzero `geobits`-bit
value (with `geobits` a multiple of five) recovers exactly that value. -/
theorem unpack_repack (P geobits : Nat) (hmul : geobits % 5 = 0) (h5 : 5 ≤ geobits)
    (hP : P < 2 ^ geobits) (hnz : P ≠ 0) :
    ∃ bq, packGeo (stripZeros (unpackChars P geobits)) geobits none = some bq ∧
      leVal bq = P := by
  set q := geobits / 5 with hq
  have hPq : P < 32 ^ q := by
    rw [pow32_pow2]
    calc P < 2 ^ geobits := hP
    _ = 2 ^ (5 * q) := by congr 1; omega
  have hchars : unpackChars P geobits =
      (List.range q).map (fun j => GHM.getD (grp P j) '0') := by
    unfold unpackChars
    rw [if_neg (by omega), if_neg (by simp [hmul])]
    simp [hq]
  obtain ⟨m, hm, hs, hzero, hbound⟩ := stripZeros_spec
    ((List.range q).map (fun j => GHM.getD (grp P j) '0'))
  rw [List.length_map, List.length_range] at hm
  have hgz : ∀ j, m ≤ j → j < q → grp P j = 0 := by
    intro j h1 h2
    have := hzero j h1 (by simpa using h2)
    rw [getD_map_range _ q j h2] at this
    by_contra hne
    exact GHM_getD_ne_zero (grp P j) (grp_lt P j) hne this
  have hm1 : 1 ≤ m := by
    by_contra hm0
    exact hnz (grp_all_zero q P hPq (fun j hj => hgz j (by omega) hj))
  have hPm : P < 32 ^ m := grp_zero_bound m q P hPq hgz
  have htake : stripZeros (unpackChars P geobits) =
      (List.range m).map (fun j => GHM.getD (grp P j) '0') := by
    rw [hchars, hs, ← List.map_take, List.take_range, Nat.min_eq_left hm]
  have hglen : (stripZeros (unpackChars P geobits)).length = m := by
    rw [htake, List.length_map, List.length_range]
  obtain ⟨bq, hpk, hlen, hB, hval⟩ := packGeo_val_none
    (stripZeros (unpackChars P geobits)) geobits
    (by rw [hglen]; omega)
  refine ⟨bq, hpk, ?_⟩
  rw [hval, hglen, htake]
  have hminq : min (m * 5) geobits = m * 5 := by omega
  rw [hminq, geoVal_map_grp m P hPm]
  apply Nat.mod_eq_of_lt
  calc P < 32 ^ m := hPm
  _ = 2 ^ (m * 5) := by rw [pow32_pow2, Nat.mul_comm]

/-- C1 counterexample: at `geobits = 8` (not a multiple of five) with
`g = "v1"`, a key whose leading 12 bits equal the built prefix decodes to
`g' = "v4"`, and `packGeo("v4", 8)` yields `[155]` while `packGeo("v1", 8)`
yields `[59]` — the patterns differ, refuting the claim as stated. -/
theorem aslRoundtrip_fails : ¬ C1Claim 0 0 ['v', '1'] 8 ([176, 3] ++ List.replicate 30 0) := by
  intro h
  obtain ⟨g', bq, bg, hdec, hq, hg, hval⟩ := h (by decide) (by decide) (by decide)
    (by decide) (by decide) (by decide) [176, 3] (by decide)
    (by unfold KeyMatchesPfx; decide)
  have h1 : decodeASL ([176, 3] ++ List.replicate 30 0) 8 = some (0, 0, ['v', '4']) := by
    decide
  rw [h1] at hdec
  simp only [Option.some.injEq, Prod.mk.injEq] at hdec
  obtain ⟨-, -, hg'⟩ := hdec
  rw [← hg'] at hq
  have h2 : packGeo ['v', '4'] 8 none = some [155] := by decide
  have h3 : packGeo ['v', '1'] 8 none = some [59] := by decide
  rw [h2] at hq
  rw [h3] at hg
  obtain rfl := Option.some.inj hq
  obtain rfl := Option.some.inj hg
  simp [leVal] at hval

/-- C1 (amended): for `age, sex ∈ {0..3}`, alphabet-valid `g`, and `geobits`
a MULTIPLE OF FIVE with `min(5·|g|, geobits) ≥ 5` and a nonzero packed
pattern, any byte key whose leading `geobits + 4` bits equal the prefix built
by `roll` decodes via `decodeASL` to `(age, sex, g')` where `packGeo g'` and
`packGeo g` at `geobits` produce the same `geobits`-bit pattern.  (When
`geobits` is not a multiple of five the decoded `g'` repacks differently —
`aslRoundtrip_fails` — and when the pattern is all zero, `packGeo g'` rejects
the stripped-empty `g'`.) -/
theorem aslRoundtrip (age sex geobits : Nat) (g : List Char) (key pfx : List Nat)
    (hage : age < 4) (hsex : sex < 4) (hvalid : ValidGeo g)
    (h5 : 5 ≤ min (g.length * 5) geobits) (hmul : geobits % 5 = 0)
    (hB : Bytes key)
    (hnz : geoVal g % 2 ^ min (g.length * 5) geobits ≠ 0)
    (hpfx : buildPfx age sex g geobits = some pfx)
    (hmatch : KeyMatchesPfx key geobits pfx) :
    ∃ g' bq bg, decodeASL key geobits = some (age, sex, g') ∧
      packGeo g' geobits none = some bq ∧ packGeo g geobits none = some bg ∧
      leVal bq = leVal bg := by
  set nE := min (g.length * 5) geobits with hnE
  set P := geoVal g % 2 ^ nE with hP
  obtain ⟨pfx2, hpfx2, hplen, hpB, hpval⟩ := buildPfx_spec age sex g geobits hage hsex h5
  rw [hpfx] at hpfx2
  obtain rfl := Option.some.inj hpfx2
  set W := leVal (defensiveCopy key geobits) with hW
  have hmatch2 : W % 2 ^ (geobits + 4) = 16 * P + 4 * sex + age := by
    rw [← hpval]
    exact hmatch
  have hPlt : P < 2 ^ geobits := by
    calc P < 2 ^ nE := Nat.mod_lt _ (Nat.pow_pos (by omega))
    _ ≤ 2 ^ geobits := Nat.pow_le_pow_right (by omega) (by omega)
  have hdm := Nat.div_add_mod W (2 ^ (geobits + 4))
  rw [hmatch2] at hdm
  set E := 2 ^ geobits with hE
  have hsplit : 2 ^ (geobits + 4) = E * 16 := by
    rw [hE, pow_add]
    norm_num
  rw [hsplit] at hdm
  set Q := W / (E * 16) with hQ
  have hdm2 : 16 * (E * Q) + 16 * P + 4 * sex + age = W := by
    rw [← hdm]
    ring
  set T := E * Q with hT
  have hage4 : W % 4 = age := by omega
  have hsex4 : W / 4 % 4 = sex := by omega
  have hW16 : W / 16 = T + P := by omega
  have hW16m : W / 16 % E = P := by
    rw [hW16, hT, show E * Q + P = P + E * Q from by ring, Nat.add_mul_mod_self_left]
    exact Nat.mod_eq_of_lt hPlt
  have hdec := decodeASL_eq key geobits hB (by omega)
  rw [hage4, hsex4] at hdec
  have hup : unpackChars (W / 16) geobits = unpackChars P geobits := by
    rw [← hW16m]
    exact (unpackChars_mod (W / 16) geobits geobits (by omega)).symm
  rw [hup] at hdec
  obtain ⟨bq, hbq, hbqv⟩ := unpack_repack P geobits hmul (by omega) hPlt (by rw [hP]; exact hnz)
  obtain ⟨bg, hbg, _, _, hbgv⟩ := packGeo_val_none g geobits h5
  exact ⟨stripZeros (unpackChars P geobits), bq, bg, hdec, hbq, hbg, by
    rw [hbqv, hbgv, ← hnE, ← hP]⟩

/-- C1 witness at `age = 1, sex = 2, g = "v", geobits = 5`,
`key = [185, 1, 0, ..., 0]`. -/
theorem aslRoundtrip_witness :
    buildPfx 1 2 ['v'] 5 = some [185, 1] ∧
      KeyMatchesPfx ([185, 1] ++ List.replicate 30 0) 5 [185, 1] ∧
      ∃ g' bq bg, decodeASL ([185, 1] ++ List.replicate 30 0) 5 = some (1, 2, g') ∧
        packGeo g' 5 none = some bq ∧ packGeo ['v'] 5 none = some bg ∧
        leVal bq = leVal bg :=
  ⟨by decide, by unfold KeyMatchesPfx; decide,
    aslRoundtrip 1 2 5 ['v'] ([185, 1] ++ List.replicate 30 0) [185, 1]
      (by decide) (by decide) (by decide) (by decide) (by decide) (by decide)
      (by decide) (by decide) (by unfold KeyMatchesPfx; decide)⟩

/-! ## C4: packGeo consumption order -/

theorem bit01_of_le (b : Nat) (h : b ≤ 1) : bit01 b = b := by
  unfold bit01
  split <;> omega

theorem foldl_bits_acc : ∀ (t : List Nat) (a : Nat),
    t.foldl (fun a b => 2 * a + b) a =
      a * 2 ^ t.length + t.foldl (fun a b => 2 * a + b) 0 := by
  intro t
  induction t with
  | nil => intro a; simp
  | cons b t ih =>
    intro a
    simp only [List.foldl_cons, List.length_cons]
    rw [ih (2 * a + b), ih (2 * 0 + b)]
    ring

/-- Value of folding a list of bits into a byte buffer via `shift`: the buffer
value is doubled per bit and the bit appended, all modulo the buffer size. -/
theorem foldl_shiftU8 : ∀ (l buf : List Nat), Bytes buf → (∀ b ∈ l, b ≤ 1) →
    (l.foldl (fun bf bit => (shiftU8 bf bit).1) buf).length = buf.length ∧
      Bytes (l.foldl (fun bf bit => (shiftU8 bf bit).1) buf) ∧
      leVal (l.foldl (fun bf bit => (shiftU8 bf bit).1) buf) =
        (leVal buf * 2 ^ l.length + l.foldl (fun a b => 2 * a + b) 0) %
          256 ^ buf.length := by
  intro l
  induction l with
  | nil =>
    intro buf hB _
    refine ⟨rfl, hB, ?_⟩
    simp only [List.foldl_nil, List.length_nil, pow_zero, Nat.mul_one, Nat.add_zero]
    exact (Nat.mod_eq_of_lt (leVal_lt hB)).symm
  | cons bit t ih =>
    intro buf hB hle
    have hbit : bit ≤ 1 := hle bit (List.mem_cons_self _ _)
    obtain ⟨h1v, h1B, h1l⟩ := shiftU8_val buf bit hB
    simp only [List.foldl_cons, List.length_cons]
    obtain ⟨ihl, ihB, ihv⟩ := ih (shiftU8 buf bit).1 h1B
      (fun b hb => hle b (List.mem_cons_of_mem _ hb))
    refine ⟨ihl.trans h1l, ihB, ?_⟩
    rw [ihv, h1l, h1v, bit01_of_le bit hbit]
    rw [foldl_bits_acc t (2 * 0 + bit)]
    conv_lhs => rw [← Nat.mod_add_mod, Nat.mod_mul_mod, Nat.mod_add_mod]
    congr 1
    ring

theorem lfBlock_le (v x : Nat) : ∀ b ∈ lfBlock v x, b ≤ 1 := by
  intro b hb
  simp only [lfBlock, List.mem_map] at hb
  obtain ⟨j, _, rfl⟩ := hb
  omega

theorem lfBlock_len (v x : Nat) : (lfBlock v x).length = x := by
  simp [lfBlock]

theorem lfBlock_val : ∀ x < 6, ∀ v < 32,
    (lfBlock v x).foldl (fun a b => 2 * a + b) 0 = v % 2 ^ x := by decide

/-- Value of the bits contributed by the full characters `m - 1` down to `0`,
read in that order: the base-32 value of the first `m` characters. -/
theorem revFlat_spec (bo : Nat → List Nat) (hash : List Char) : ∀ (m : Nat),
    (∀ i < m, (bo i).length = 5) →
    (∀ i < m, (bo i).foldl (fun a b => 2 * a + b) 0 = charVal (hash.getD i ' ')) →
    (((List.range m).reverse.flatMap bo).length = 5 * m ∧
      ((List.range m).reverse.flatMap bo).foldl (fun a b => 2 * a + b) 0 =
        geoVal (hash.take m)) := by
  intro m
  induction m with
  | zero => intro _ _; simp [geoVal]
  | succ m ih =>
    intro hlen hval
    obtain ⟨ihl, ihv⟩ := ih (fun i hi => hlen i (by omega)) (fun i hi => hval i (by omega))
    have hsplit : (List.range (m + 1)).reverse.flatMap bo =
        bo m ++ (List.range m).reverse.flatMap bo := by
      rw [List.range_succ, List.reverse_append]
      simp
    rw [hsplit]
    constructor
    · rw [List.length_append, hlen m (by omega), ihl]
      omega
    · rw [List.foldl_append, foldl_bits_acc, ihl, ihv, hval m (by omega)]
      by_cases hm : m < hash.length
      · rw [gv_take_succ hash m hm, pow32_pow2]
        ring
      · rw [List.take_of_length_le (by omega), List.take_of_length_le (by omega),
          List.getD_eq_default _ _ (by omega)]
        have : charVal ' ' = 0 := by decide
        rw [this]
        ring

/-- Core of the C4 order characterisation: any per-character bit supplier `bo`
whose blocks carry the full 5 bits of characters `0..tl-1` and the low
`nBits - 5*tl` bits of character `tl`, fed last character first, folds to the
`nBits`-bit pattern of the geohash. -/
theorem lastFirstCore (hash : List Char) (nBits : Nat) (bo : Nat → List Nat)
    (out : List Nat)
    (h5 : 5 ≤ nBits) (hle : nBits ≤ 5 * hash.length)
    (holen : out.length = roundByte nBits) (hoB : Bytes out)
    (hoval : leVal out = geoVal hash % 2 ^ nBits)
    (hfull : ∀ i, i < (nBits + 4) / 5 - 1 → (bo i).length = 5 ∧ (∀ b ∈ bo i, b ≤ 1) ∧
      (bo i).foldl (fun a b => 2 * a + b) 0 = charVal (hash.getD i ' '))
    (hpart : (∀ b ∈ bo ((nBits + 4) / 5 - 1), b ≤ 1) ∧
      (bo ((nBits + 4) / 5 - 1)).foldl (fun a b => 2 * a + b) 0 =
        charVal (hash.getD ((nBits + 4) / 5 - 1) ' ') %
          2 ^ (nBits - 5 * ((nBits + 4) / 5 - 1))) :
    out = (((List.range ((nBits + 4) / 5 - 1 + 1)).reverse).flatMap bo).foldl
      (fun b bit => (shiftU8 b bit).1) (List.replicate (roundByte nBits) 0) := by
  have hsplit : (List.range ((nBits + 4) / 5 - 1 + 1)).reverse.flatMap bo =
      bo ((nBits + 4) / 5 - 1) ++
        (List.range ((nBits + 4) / 5 - 1)).reverse.flatMap bo := by
    rw [List.range_succ, List.reverse_append]
    simp
  obtain ⟨hrl, hrv⟩ := revFlat_spec bo hash ((nBits + 4) / 5 - 1)
    (fun i hi => (hfull i hi).1) (fun i hi => (hfull i hi).2.2)
  have hle1 : ∀ b ∈ (List.range ((nBits + 4) / 5 - 1 + 1)).reverse.flatMap bo, b ≤ 1 := by
    intro b hb
    rw [hsplit] at hb
    rcases List.mem_append.mp hb with h | h
    · exact hpart.1 b h
    · obtain ⟨i, hi, hbi⟩ := List.mem_flatMap.mp h
      have hi' : i < (nBits + 4) / 5 - 1 := by
        have := List.mem_reverse.mp hi
        simpa using this
      exact (hfull i hi').2.1 b hbi
  obtain ⟨hfl, hfB, hfv⟩ := foldl_shiftU8
    ((List.range ((nBits + 4) / 5 - 1 + 1)).reverse.flatMap bo)
    (List.replicate (roundByte nBits) 0) (bytes_replicate _) hle1
  apply bytes_ext hoB hfB (by rw [holen, hfl, List.length_replicate])
  rw [hoval, hfv]
  rw [leVal_zero (fun b hb => List.eq_of_mem_replicate hb), Nat.zero_mul, Nat.zero_add]
  rw [hsplit, List.foldl_append, foldl_bits_acc, hrl, hrv, hpart.2]
  rw [List.length_replicate]
  rw [geoVal_split hash nBits h5 hle]
  have hlt : geoVal hash % 2 ^ nBits < 256 ^ roundByte nBits := by
    calc geoVal hash % 2 ^ nBits < 2 ^ nBits :=
      Nat.mod_lt _ (Nat.pow_pos (by omega))
    _ ≤ 256 ^ roundByte nBits := pow2_le_pow256 (pow8_roundByte nBits)
  exact (Nat.mod_eq_of_lt hlt).symm

/-- C4 counterexample: for `hash = "v1"`, `nBits = 8`, the order the claim
describes (first character's TOP `nBits mod 5` bits first) produces the byte
`[193]`, while `packGeo` produces `[59]` — the claim's consumption order is
not the program's. -/
theorem packGeo_claim_order_fails :
    packGeoClaimOrder ['v', '1'] 8 ≠ packGeo ['v', '1'] 8 none := by decide

/-- C4 (amended): `packGeo` consumes the geohash from the LAST needed
character down to the first, and when `nBits` is not a multiple of five it
uses the BOTTOM `nBits mod 5` bits of that last needed character; each
character's used bits are fed most-significant-of-the-used-bits first.
Stated as: `packGeo` coincides with the reference packer of that shape on
every input, including the thrown-exception (`none`) cases. -/
theorem packGeo_last_first (hash : List Char) (nBits0 : Nat) :
    packGeo hash nBits0 none = packGeoLastFirst hash nBits0 := by
  by_cases h5 : min (hash.length * 5) nBits0 < 5
  · simp [packGeo, packGeoLastFirst, h5]
  · push_neg at h5
    obtain ⟨out, hout, holen, hoB, hoval⟩ := packGeo_val_none hash nBits0 h5
    rw [hout]
    simp only [packGeoLastFirst]
    rw [if_neg (by omega)]
    congr 1
    refine lastFirstCore hash (min (hash.length * 5) nBits0) _ out h5 (by omega)
      holen hoB hoval ?_ ?_
    · intro i hi
      dsimp only
      rw [if_neg (by omega :
        ¬(i = (min (hash.length * 5) nBits0 + 4) / 5 - 1 ∧
          min (hash.length * 5) nBits0 % 5 ≠ 0))]
      refine ⟨lfBlock_len _ _, lfBlock_le _ _, ?_⟩
      exact (lfBlock_val 5 (by omega) _ (charVal_lt _)).trans
        (Nat.mod_eq_of_lt (charVal_lt _))
    · constructor
      · dsimp only
        exact lfBlock_le _ _
      · dsimp only
        by_cases hr : min (hash.length * 5) nBits0 % 5 = 0
        · rw [if_neg (by simp [hr])]
          rw [show min (hash.length * 5) nBits0 -
              5 * ((min (hash.length * 5) nBits0 + 4) / 5 - 1) = 5 from by omega]
          exact lfBlock_val 5 (by omega) _ (charVal_lt _)
        · rw [if_pos ⟨rfl, hr⟩]
          rw [show min (hash.length * 5) nBits0 -
              5 * ((min (hash.length * 5) nBits0 + 4) / 5 - 1) =
              min (hash.length * 5) nBits0 % 5 from by omega]
          exact lfBlock_val _ (by omega) _ (charVal_lt _)

/-! ## C9: flagOf exact hit -/

theorem xor_bit_le : ∀ a < 2, ∀ b < 2, Nat.xor a b ≤ 1 := by decide

theorem xor_bits_zero : ∀ a < 2, ∀ b < 2, (Nat.xor a b = 0 ↔ a = b) := by decide

theorem mod_pow_succ_low (x r : Nat) :
    x % 2 ^ (r + 1) = x % 2 + x / 2 % 2 ^ r * 2 := by
  have key : x = 2 ^ (r + 1) * (x / 2 / 2 ^ r) + (x % 2 + x / 2 % 2 ^ r * 2) := by
    have h2 : x / 2 = 2 ^ r * (x / 2 / 2 ^ r) + x / 2 % 2 ^ r :=
      (Nat.div_add_mod _ _).symm
    calc x = 2 * (x / 2) + x % 2 := (Nat.div_add_mod x 2).symm
    _ = 2 * (2 ^ r * (x / 2 / 2 ^ r) + x / 2 % 2 ^ r) + x % 2 := by rw [← h2]
    _ = 2 ^ (r + 1) * (x / 2 / 2 ^ r) + (x % 2 + x / 2 % 2 ^ r * 2) := by
      rw [pow_succ]; ring
  conv_lhs => rw [key]
  rw [show 2 ^ (r + 1) * (x / 2 / 2 ^ r) + (x % 2 + x / 2 % 2 ^ r * 2) =
      (x % 2 + x / 2 % 2 ^ r * 2) + 2 ^ (r + 1) * (x / 2 / 2 ^ r) from by ring,
    Nat.add_mul_mod_self_left]
  apply Nat.mod_eq_of_lt
  have hm : x / 2 % 2 ^ r < 2 ^ r := Nat.mod_lt _ (Nat.pow_pos (by omega))
  rw [pow_succ]
  omega

theorem revXor_lt : ∀ (r A B : Nat), revXor r A B < 2 ^ r := by
  intro r
  induction r with
  | zero => intro A B; simp [revXor]
  | succ r ih =>
    intro A B
    simp only [revXor]
    have h1 : Nat.xor (A % 2) (B % 2) ≤ 1 := xor_bit_le _ (by omega) _ (by omega)
    have h2 := ih (A / 2) (B / 2)
    rcases Nat.le_one_iff_eq_zero_or_eq_one.mp h1 with h | h <;> rw [h, pow_succ] <;> omega

theorem revXor_eq_zero : ∀ (r A B : Nat),
    (revXor r A B = 0 ↔ A % 2 ^ r = B % 2 ^ r) := by
  intro r
  induction r with
  | zero => intro A B; simp [revXor, Nat.mod_one]
  | succ r ih =>
    intro A B
    simp only [revXor]
    constructor
    · intro h
      obtain ⟨hx0, hr0⟩ := Nat.add_eq_zero.mp h
      have hx : Nat.xor (A % 2) (B % 2) = 0 := by
        rcases Nat.mul_eq_zero.mp hx0 with h' | h'
        · exact h'
        · exact absurd h' (by positivity)
      have h1 : A % 2 = B % 2 :=
        (xor_bits_zero (A % 2) (by omega) (B % 2) (by omega)).mp hx
      have h2 : A / 2 % 2 ^ r = B / 2 % 2 ^ r := (ih (A / 2) (B / 2)).mp hr0
      have hA := mod_pow_succ_low A r
      have hB := mod_pow_succ_low B r
      omega
    · intro h
      have h1 : A % 2 = B % 2 := by
        have hA := mod_pow_succ_low A r
        have hB := mod_pow_succ_low B r
        have hmA : A / 2 % 2 ^ r < 2 ^ r := Nat.mod_lt _ (Nat.pow_pos (by omega))
        have hmB : B / 2 % 2 ^ r < 2 ^ r := Nat.mod_lt _ (Nat.pow_pos (by omega))
        omega
      have h2 : A / 2 % 2 ^ r = B / 2 % 2 ^ r := by
        have hA := mod_pow_succ_low A r
        have hB := mod_pow_succ_low B r
        omega
      rw [(xor_bits_zero (A % 2) (by omega) (B % 2) (by omega)).mpr h1,
        (ih (A / 2) (B / 2)).mpr h2]
      simp

/-- Value of the XOR loop: the output register accumulates the bit-reversed
XOR of the inputs' low `r` bits above the previous contents. -/
theorem xorLoop_spec : ∀ (r : Nat) (out ac bc : List Nat), Bytes out → Bytes ac →
    Bytes bc → out.length = 4 →
    leVal (xorLoop r out ac bc) =
        (leVal out * 2 ^ r + revXor r (leVal ac) (leVal bc)) % 256 ^ 4 ∧
      (xorLoop r out ac bc).length = 4 ∧ Bytes (xorLoop r out ac bc) := by
  intro r
  induction r with
  | zero =>
    intro out ac bc hBo _ _ hlo
    refine ⟨?_, hlo, hBo⟩
    simp only [xorLoop, revXor, pow_zero, Nat.mul_one, Nat.add_zero]
    rw [← hlo]
    exact (Nat.mod_eq_of_lt (leVal_lt hBo)).symm
  | succ r ih =>
    intro out ac bc hBo hBa hBb hlo
    rcases h1 : unshiftA ac 0 with ⟨ac1, xa⟩
    rcases h2 : unshiftA bc 0 with ⟨bc1, xb⟩
    obtain ⟨ha1, ha2, ha3, ha4⟩ := unshiftA_spec ac 0 hBa
    rw [h1] at ha1 ha2 ha3 ha4
    have ha4' : 2 * leVal ac1 + xa = leVal ac := by simpa [bit01] using ha4
    obtain ⟨hb1, hb2, hb3, hb4⟩ := unshiftA_spec bc 0 hBb
    rw [h2] at hb1 hb2 hb3 hb4
    have hb4' : 2 * leVal bc1 + xb = leVal bc := by simpa [bit01] using hb4
    have hxa : xa = leVal ac % 2 := by omega
    have hac1 : leVal ac1 = leVal ac / 2 := by omega
    have hxb : xb = leVal bc % 2 := by omega
    have hbc1 : leVal bc1 = leVal bc / 2 := by omega
    obtain ⟨hs1, hs2, hs3⟩ := shiftU8_val out (Nat.xor xa xb) hBo
    have hxle : Nat.xor xa xb ≤ 1 := by
      rw [hxa, hxb]
      exact xor_bit_le _ (by omega) _ (by omega)
    rw [bit01_of_le _ hxle, hlo] at hs1
    have hs4 : (shiftU8 out (Nat.xor xa xb)).1.length = 4 := hs3.trans hlo
    have hstep : xorLoop (r + 1) out ac bc =
        xorLoop r (shiftU8 out (Nat.xor xa xb)).1 ac1 bc1 := by
      simp only [xorLoop, h1, h2]
    rw [hstep]
    obtain ⟨ihv, ihl, ihB⟩ := ih (shiftU8 out (Nat.xor xa xb)).1 ac1 bc1 hs2 ha2 hb2 hs4
    refine ⟨?_, ihl, ihB⟩
    rw [ihv, hs1, hac1, hbc1, hxa, hxb]
    simp only [revXor]
    conv_lhs => rw [← Nat.mod_add_mod, Nat.mod_mul_mod, Nat.mod_add_mod]
    congr 1
    ring

theorem first4_bytes (a : List Nat) (ha : Bytes a) : Bytes (first4 a) := by
  intro b hb
  simp only [first4, List.mem_map] at hb
  obtain ⟨i, _, rfl⟩ := hb
  exact bytes_getD ha i

theorem first4_len (a : List Nat) : (first4 a).length = 4 := by simp [first4]

/-- The XOR distance is zero exactly when the two zero-extended 4-byte
views coincide. -/
theorem xorDistance_zero_iff (a b : List Nat) (ha : Bytes a) (hb : Bytes b) :
    (xorDistance a b = 0 ↔ first4 a = first4 b) := by
  have hBo : Bytes [0, 0, 0, 0] := by decide
  obtain ⟨hv, _, _⟩ := xorLoop_spec 32 [0, 0, 0, 0] (first4 a) (first4 b)
    hBo (first4_bytes a ha) (first4_bytes b hb) rfl
  unfold xorDistance
  rw [hv]
  have h0 : leVal [0, 0, 0, 0] = 0 := by decide
  rw [h0, Nat.zero_mul, Nat.zero_add]
  have hpow : (256 : Nat) ^ 4 = 2 ^ 32 := by norm_num
  rw [hpow, Nat.mod_eq_of_lt (revXor_lt 32 _ _)]
  rw [revXor_eq_zero]
  have hla : leVal (first4 a) < 2 ^ 32 := by
    have := leVal_lt (first4_bytes a ha)
    rwa [first4_len, hpow] at this
  have hlb : leVal (first4 b) < 2 ^ 32 := by
    have := leVal_lt (first4_bytes b hb)
    rwa [first4_len, hpow] at this
  rw [Nat.mod_eq_of_lt hla, Nat.mod_eq_of_lt hlb]
  constructor
  · intro h
    exact bytes_ext (first4_bytes a ha) (first4_bytes b hb)
      ((first4_len a).trans (first4_len b).symm) h
  · intro h
    rw [h]

theorem packGeo_some_bytes (hash : List Char) (nBits0 : Nat) (out : List Nat)
    (h : packGeo hash nBits0 none = some out) : Bytes out := by
  by_cases h5 : min (hash.length * 5) nBits0 < 5
  · exfalso
    simp only [packGeo] at h
    rw [if_pos h5] at h
    exact Option.noConfusion h
  · push_neg at h5
    obtain ⟨out', h1, _, h3, _⟩ := packGeo_val_none hash nBits0 h5
    rw [h] at h1
    obtain rfl := Option.some.inj h1
    exact h3

theorem FLUT_bytes : ∀ p ∈ FLUT, Bytes p.2 := by
  intro p hp
  unfold FLUT at hp
  obtain ⟨x, _, rfl⟩ := List.mem_map.mp hp
  dsimp only
  cases hpk : packGeo ((splitOnChar (Char.ofNat 58) x).getD 1 []) 40 none with
  | none => exact bytes_nil
  | some out => exact packGeo_some_bytes _ _ _ hpk

theorem insertAsc_zero (x : List Char × Nat) (hx : x.2 = 0) :
    ∀ S, insertAsc x S = x :: S := by
  intro S
  cases S with
  | nil => rfl
  | cons y t =>
    unfold insertAsc
    rw [if_neg (by omega)]

theorem mem_insertAsc (x y : List Char × Nat) :
    ∀ S, (y ∈ insertAsc x S ↔ y = x ∨ y ∈ S) := by
  intro S
  induction S with
  | nil => simp [insertAsc]
  | cons z t ih =>
    unfold insertAsc
    split
    · simp only [List.mem_cons, ih]
      tauto
    · simp only [List.mem_cons]

theorem mem_sortAsc (y : List Char × Nat) :
    ∀ L, (y ∈ sortAsc L ↔ y ∈ L) := by
  intro L
  induction L with
  | nil => simp [sortAsc]
  | cons z t ih =>
    simp only [sortAsc, mem_insertAsc, ih, List.mem_cons]

/-- The head of the stable ascending sort is the element with key 0 when
every other element has a nonzero key. -/
theorem sortAsc_head (L : List (List Char × Nat)) (x : List Char × Nat)
    (hmem : x ∈ L) (hx : x.2 = 0) (huniq : ∀ y ∈ L, y ≠ x → y.2 ≠ 0) :
    (sortAsc L).headD ([], 0) = x := by
  induction L with
  | nil => cases hmem
  | cons z t ih =>
    by_cases hz : z = x
    · subst hz
      simp only [sortAsc]
      rw [insertAsc_zero z hx (sortAsc t)]
      rfl
    · have hxt : x ∈ t := by
        rcases List.mem_cons.mp hmem with h | h
        · exact absurd h.symm hz
        · exact h
      have hzz : z.2 ≠ 0 := huniq z (List.mem_cons_self _ _) hz
      have iht := ih hxt (fun y hy hne => huniq y (List.mem_cons_of_mem _ hy) hne)
      simp only [sortAsc]
      have hne : sortAsc t ≠ [] := by
        intro h0
        have hm := (mem_sortAsc x t).mpr hxt
        rw [h0] at hm
        cases hm
      cases hst : sortAsc t with
      | nil => exact absurd hst hne
      | cons y rest =>
        rw [hst] at iht
        have hy : y = x := by simpa using iht
        unfold insertAsc
        rw [if_pos (by rw [hy, hx]; omega)]
        simp [hy]

theorem pairwiseNe_map {α β : Type} (g : α → β) :
    ∀ (l : List α), (l.map g).Nodup → ∀ a ∈ l, ∀ b ∈ l, g a = g b → a = b := by
  intro l
  induction l with
  | nil => intro _ a ha; cases ha
  | cons z t ih =>
    intro hp a ha b hb hg
    rw [List.map_cons, List.nodup_cons] at hp
    obtain ⟨hz, hp'⟩ := hp
    rcases List.mem_cons.mp ha with rfl | ha' <;> rcases List.mem_cons.mp hb with rfl | hb'
    · rfl
    · exact absurd (by rw [hg]; exact List.mem_map_of_mem g hb') hz
    · exact absurd (by rw [← hg]; exact List.mem_map_of_mem g ha') hz
    · exact ih hp' a ha' b hb' hg

set_option maxRecDepth 100000 in
set_option maxHeartbeats 4000000 in
/-- The first four packed bytes of the 204 LUT entries, computed: they agree
with the literal table `flutF4`. -/
theorem flutF4_eq : FLUT.map (fun f => first4 f.2) = flutF4 := by decide

set_option maxRecDepth 10000 in
theorem flutF4_nodup : flutF4.Nodup := by decide

/-- Core of the exact-hit argument, over an arbitrary LUT `L` whose entries
have byte-valued packs and pairwise distinct first-four bytes: if `bq`
agrees with entry `(flag, hb)` on the first four bytes, the distance-sorted
list starts with that entry. -/
theorem flagHit_core (L : List (List Char × List Nat)) (flag : List Char)
    (hb bq : List Nat) (hmem : (flag, hb) ∈ L) (hBq : Bytes bq)
    (hLB : ∀ p ∈ L, Bytes p.2)
    (hnodup : (L.map (fun f => first4 f.2)).Nodup)
    (hf4 : first4 bq = first4 hb) :
    (sortAsc (L.map (fun f => (f.1, xorDistance bq f.2)))).headD ([], 0) =
      (flag, xorDistance bq hb) := by
  have hBh : Bytes hb := hLB (flag, hb) hmem
  have hd0 : xorDistance bq hb = 0 := (xorDistance_zero_iff bq hb hBq hBh).mpr hf4
  apply sortAsc_head
  · exact List.mem_map_of_mem (fun f => (f.1, xorDistance bq f.2)) hmem
  · dsimp only
    exact hd0
  · intro y hy hne
    obtain ⟨f, hf, rfl⟩ := List.mem_map.mp hy
    intro h0
    dsimp only at h0 hne
    have hBf : Bytes f.2 := hLB f hf
    have hff : first4 f.2 = first4 hb := by
      have h1 : first4 bq = first4 f.2 :=
        (xorDistance_zero_iff bq f.2 hBq hBf).mp h0
      rw [← h1, hf4]
    have hfe : f = (flag, hb) :=
      pairwiseNe_map (fun f => first4 f.2) L hnodup f hf (flag, hb) hmem hff
    exact hne (by rw [hfe])

/-- C9: `flagOf` exact hit — for a geohash whose 40-bit packed pattern equals
that of a LUT entry, `flagOf(geohash, 40)` returns that entry's flag: its XOR
distance is 0, every other entry's distance is nonzero (the 204 entries have
pairwise distinct first-four packed bytes), and the ascending stable sort
therefore places the entry first. -/
theorem flagOf_exact_hit (q flag : List Char) (hb bq : List Nat)
    (hmem : (flag, hb) ∈ FLUT)
    (hpk : packGeo q 40 none = some bq)
    (hval : leVal bq = leVal hb) :
    flagOf q 40 = some flag := by
  have hBq : Bytes bq := packGeo_some_bytes q 40 bq hpk
  have hBh : Bytes hb := FLUT_bytes (flag, hb) hmem
  have hf4 : first4 bq = first4 hb := by
    unfold first4
    exact List.map_congr_left
      (fun i _ => by rw [leVal_getD hBq i, leVal_getD hBh i, hval])
  have hhead := flagHit_core FLUT flag hb bq hmem hBq FLUT_bytes
    (by rw [flutF4_eq]; exact flutF4_nodup) hf4
  unfold flagOf
  rw [hpk]
  simp only [Option.map_some']
  rw [hhead]

set_option maxRecDepth 100000 in
set_option maxHeartbeats 4000000 in
/-- C9 witness at the first LUT entry (the 🇦🇨 flag, geohash `7wtfc36k7311`). -/
theorem flagOf_exact_hit_witness :
    ("🇦🇨".toList, [135, 103, 183, 134, 145]) ∈ FLUT ∧
      packGeo ("7wtfc36k7311".toList) 40 none = some [135, 103, 183, 134, 145] ∧
      flagOf ("7wtfc36k7311".toList) 40 = some ("🇦🇨".toList) :=
  ⟨by decide, by decide,
    flagOf_exact_hit ("7wtfc36k7311".toList) ("🇦🇨".toList)
      [135, 103, 183, 134, 145] [135, 103, 183, 134, 145]
      (by decide) (by decide) rfl⟩

end Powmem
